import Mathlib

/-!
Shallow embedding of `spatial_tree.py` (SpatialTreePy) over exact real arithmetic,
together with theorems settling the frozen claims about it.

Conventions:
* Python floats are modelled as real numbers; `math.sin`, `math.cos`, `math.acos`,
  `math.asin`, `math.atan`, `math.tan` become the Mathlib real functions.
* Python object identity (`==` on `Point` instances, which define no `__eq__`)
  is modelled by a `tag : ℕ` field on `Point`: two distinct allocations carry
  distinct tags, and comparison of whole `Point` values plays the role of `is`.
  The geometry never reads `tag`.
* Python exceptions are modelled with `Except PyErr`: `OutOfBounds`,
  `ValueError` (math domain error) and `ZeroDivisionError` (float division by
  exactly `0.0`).
* The Python float modulo `x % y` (floored, result in `[0, y)` for `y > 0`) is
  modelled exactly by `fmod`.
-/

open Real

noncomputable section

open scoped Classical

/-- Errors the Python code can raise while running the algorithms under study. -/
inductive PyErr where
  | outOfBounds
  | valueError
  | zeroDivision
  deriving DecidableEq

/-- A geographic point as stored by `Point.__init__`: `lat`/`lon` hold the
radian values `self.lat`/`self.lon`.  The extra `tag` models Python object
identity (see module docstring); it plays no role in any geometric formula. -/
structure Point where
  tag : ℕ
  lat : ℝ
  lon : ℝ

instance : DecidableEq Point := Classical.decEq _

/-- The `math.radians`. -/
def radians (x : ℝ) : ℝ := x * π / 180

/-- The `Point(latitude, longitude)`: the constructor converts its DEGREE arguments
to radians.  Internal geometry code (`Rectangle.corners`,
`ClosestSearchResult.intercept_meridian`) also calls this constructor, feeding
it values that are already radians, so the conversion is applied there too,
exactly as in the source.  Freshly constructed points get tag `0`; they are
never stored in a tree nor compared against stored points. -/
def mkPoint (latitude longitude : ℝ) : Point :=
  ⟨0, radians latitude, radians longitude⟩

/-- The spherical law-of-cosines expression handed to `math.acos` by
`Point.distance_rad` — exactly the argument of `acos` in the source, with no
clamping. -/
def cosArg (p q : Point) : ℝ :=
  sin p.lat * sin q.lat + cos p.lat * cos q.lat * cos (p.lon - q.lon)

/-- The `Point.distance_rad`.  Python's `math.acos` raises `ValueError` outside
`[-1, 1]`; `cosArg_mem_Icc` below shows the argument always lies in `[-1, 1]`
in exact arithmetic, so the total embedding via `Real.arccos` is faithful. -/
def Point.distance_rad (p q : Point) : ℝ := arccos (cosArg p q)

/-- The `Rectangle.__init__` stores the four bounds; the two `assert` statements
are modelled as the `proper` predicate, carried as a hypothesis where claims
assume a successfully constructed rectangle. -/
structure Rectangle where
  bottom : ℝ
  left : ℝ
  top : ℝ
  right : ℝ

instance : DecidableEq Rectangle := Classical.decEq _

/-- The two construction-time `assert`s of `Rectangle.__init__`. -/
def Rectangle.proper (r : Rectangle) : Prop := r.bottom ≤ r.top ∧ r.left ≤ r.right

/-- The `Rectangle.__contains__`: half-open on all four sides. -/
def Rectangle.containsP (r : Rectangle) (p : Point) : Prop :=
  r.bottom ≤ p.lat ∧ p.lat < r.top ∧ r.left ≤ p.lon ∧ p.lon < r.right

/-- The `Rectangle.corners`.  Note the source calls the `Point` constructor on the
radian bounds, so the degree→radian conversion is (erroneously) applied a
second time; the embedding reproduces that. -/
def Rectangle.corners (r : Rectangle) : List Point :=
  [mkPoint r.bottom r.left, mkPoint r.bottom r.right,
   mkPoint r.top r.left, mkPoint r.top r.right]

/-- The `Rectangle.centric_split`, in the source's child order. -/
def Rectangle.centric_split (r : Rectangle) : List Rectangle :=
  [⟨r.bottom, r.left, (r.top + r.bottom) / 2, (r.right + r.left) / 2⟩,
   ⟨r.bottom, (r.right + r.left) / 2, (r.top + r.bottom) / 2, r.right⟩,
   ⟨(r.top + r.bottom) / 2, r.left, r.top, (r.right + r.left) / 2⟩,
   ⟨(r.top + r.bottom) / 2, (r.right + r.left) / 2, r.top, r.right⟩]


/-- Python's float modulo `x % y`: floored division semantics, so for `y > 0`
the result lies in `[0, y)` regardless of the sign of `x`. -/
def fmod (x y : ℝ) : ℝ := x - y * ⌊x / y⌋

/-- Python `min` over a list of floats.  Python raises on an empty list; the
source only ever applies it to a six-element list, so the `[]` value is
irrelevant junk. -/
def pymin : List ℝ → ℝ
  | [] => 0
  | x :: xs => xs.foldl min x

/-- The `ClosestSearchResult.__init__` state.  The source keeps two fields
`closest` (a point or `None`) and `closest_dist` (a float or `None`) that are
always written together by `update`; the embedding merges them into one
`Option` pair, which covers exactly the reachable states. -/
structure ClosestSearchResult where
  point : Point
  closest : Option (Point × ℝ)

namespace ClosestSearchResult

/-- The `ClosestSearchResult.distance`. -/
def distance (r : ClosestSearchResult) (other_point : Point) : ℝ :=
  r.point.distance_rad other_point

/-- The `ClosestSearchResult.update`: replace the best only if strictly closer
(or if no best exists yet). -/
def update (r : ClosestSearchResult) (other_point : Point) : ClosestSearchResult :=
  match r.closest with
  | none => { r with closest := some (other_point, r.distance other_point) }
  | some (_, bd) =>
      if r.distance other_point < bd then
        { r with closest := some (other_point, r.distance other_point) }
      else r

/-- The `ClosestSearchResult.delta_lon`. -/
def delta_lon (r : ClosestSearchResult) (lon : ℝ) : ℝ :=
  if |r.point.lon - lon| > π then 2 * π - |r.point.lon - lon| else |r.point.lon - lon|

/-- The `ClosestSearchResult.dist_to_meridian`.  (`math.asin` raises outside
`[-1,1]`; here `|cos · sin| ≤ 1` always holds in exact arithmetic, so the
total embedding is faithful.  The search never calls this method.) -/
def dist_to_meridian (r : ClosestSearchResult) (lon : ℝ) : ℝ :=
  arcsin (cos r.point.lat * sin (r.delta_lon lon))

/-- The `ClosestSearchResult.lat_at_meridian`: the source divides by
`math.tan(abs(self.point.lat))`.  In Python that divisor is `0.0` exactly when
the query latitude is `0.0`, raising `ZeroDivisionError`; the guard models
that raise.  (For latitudes on the data range `[-pi/2, pi/2]` this is the only
zero of the divisor.) -/
def lat_at_meridian (r : ClosestSearchResult) (lon : ℝ) : Except PyErr ℝ :=
  if r.point.lat = 0 then .error .zeroDivision
  else .ok (π / 2 - arctan (cos (r.delta_lon lon) / tan |r.point.lat|))

/-- The `ClosestSearchResult.intercept_meridian`: builds `Point(lat, lon)` from
values that are already radians, so the constructor's degree→radian conversion
is applied a second time, exactly as in the source. -/
def intercept_meridian (r : ClosestSearchResult) (lon : ℝ) : Except PyErr Point := do
  let la ← r.lat_at_meridian lon
  return mkPoint la lon

/-- The minimum-possible-distance computation inside
`ClosestSearchResult.intersects` (the value bound to `min_dist` in the
source), including its three branches in order. -/
def min_dist (r : ClosestSearchResult) (bounds : Rectangle) : Except PyErr ℝ :=
  if bounds.left ≤ r.point.lon ∧ r.point.lon ≤ bounds.right then
    .ok (min |r.point.lat - bounds.top| |r.point.lat - bounds.bottom|)
  else if fmod (bounds.left + π) π ≤ fmod (r.point.lon + π) π ∧
      fmod (r.point.lon + π) π ≤ fmod (bounds.right + π) π then
    .ok (min (π - |r.point.lat + bounds.top|) (π - |r.point.lat + bounds.bottom|))
  else do
    let closest_to_left ← r.intercept_meridian bounds.left
    let closest_to_right ← r.intercept_meridian bounds.right
    return pymin ((bounds.corners ++ [closest_to_left, closest_to_right]).map r.distance)

/-- The `ClosestSearchResult.intersects`.  The source returns `True` when
`self.closest is None` or the query point is inside `bounds`; otherwise it
compares the computed `min_dist` against `self.closest_dist`. -/
def intersects (r : ClosestSearchResult) (bounds : Rectangle) : Except PyErr Bool :=
  match r.closest with
  | none => .ok true
  | some (_, bd) =>
      if bounds.containsP r.point then .ok true
      else do
        let m ← r.min_dist bounds
        return decide (m ≤ bd)

/-- The loop body of `SpatialLeaf.search_closest`: every stored point is
offered to `update` except one `==`-equal (i.e. identical) to the query. -/
def scanPoints (pts : List Point) (r : ClosestSearchResult) : ClosestSearchResult :=
  pts.foldl (fun s p => if p = s.point then s else s.update p) r

end ClosestSearchResult


/-- The recursive index structure: a node is either a `SpatialLeaf` (bounds,
insertion-ordered point bucket, capacity) or a `SpatialTree` (bounds plus its
`leaves` list, whose members may themselves be leaves or subtrees after
splits). -/
inductive SpatialNode where
  | leaf (bounds : Rectangle) (points : List Point) (max_items : ℕ)
  | tree (bounds : Rectangle) (leaves : List SpatialNode)

namespace SpatialNode

/-- The `bounds` attribute shared by `SpatialLeaf` and `SpatialTree`. -/
def bounds : SpatialNode → Rectangle
  | .leaf b _ _ => b
  | .tree b _ => b

/-- The `must_split`: a leaf splits when its count exceeds `max_items`; a
`SpatialTree` never reports `must_split`. -/
def must_split : SpatialNode → Bool
  | .leaf _ pts m => decide (m < pts.length)
  | .tree _ _ => false

/-- The `SpatialLeaf.add` after its containment guard has already passed (the
guard in `split`/`SpatialTree.add` is the identical `point in leaf` test, so
the internal re-check cannot fail there). -/
def appendPoint : SpatialNode → Point → SpatialNode
  | .leaf b pts m, p => .leaf b (pts ++ [p]) m
  | t, _ => t

/-- The inner loop of `SpatialLeaf.split`: re-insert a point into the first
new leaf whose region contains it (`break` after the first hit); a point no
new leaf contains is silently dropped, as in the source. -/
def placeFirst : List SpatialNode → Point → List SpatialNode
  | [], _ => []
  | c :: rest, p =>
      if c.bounds.containsP p then c.appendPoint p :: rest
      else c :: placeFirst rest p

/-- The `SpatialLeaf.split`: quarter the region into four fresh empty leaves and
re-insert every stored point. -/
def splitLeaf (b : Rectangle) (pts : List Point) (m : ℕ) : List SpatialNode :=
  pts.foldl placeFirst (b.centric_split.map (fun rect => SpatialNode.leaf rect [] m))

/-- The `SpatialTree.split_of`: wrap a split leaf into a subtree over the same
bounds.  (Only leaves ever satisfy `must_split`, so the subtree case is
unreachable; it returns the node unchanged.) -/
def split_of : SpatialNode → SpatialNode
  | .leaf b pts m => .tree b (splitLeaf b pts m)
  | t => t

mutual

/-- The `add`: on a leaf this is `SpatialLeaf.add` (raise `OutOfBounds` when the
point is outside the leaf's region, else append); on a tree this is
`SpatialTree.add` (route to the first child whose region contains the point,
then replace that child by its split when it overflows; a point no child
contains is silently ignored). -/
def add : SpatialNode → Point → Except PyErr SpatialNode
  | .leaf b pts m, p =>
      if b.containsP p then .ok (.leaf b (pts ++ [p]) m)
      else .error .outOfBounds
  | .tree b cs, p => do
      let cs' ← addLoop cs p
      return .tree b cs'

/-- The `for i, leaf in enumerate(self.leaves)` loop of `SpatialTree.add`,
including the post-loop in-place replacement of an overflowing leaf by
`split_of`. -/
def addLoop : List SpatialNode → Point → Except PyErr (List SpatialNode)
  | [], _ => .ok []
  | c :: rest, p =>
      if c.bounds.containsP p then do
        let c' ← add c p
        return (if c'.must_split then split_of c' else c') :: rest
      else do
        let rest' ← addLoop rest p
        return c :: rest'

end

mutual

/-- Iteration (`__iter__`): all stored points in leaf-then-point order. -/
def toList : SpatialNode → List Point
  | .leaf _ pts _ => pts
  | .tree _ cs => toListAux cs

def toListAux : List SpatialNode → List Point
  | [] => []
  | c :: rest => toList c ++ toListAux rest

end

mutual

/-- The `count`: leaf bucket length, resp. sum over children. -/
def count : SpatialNode → ℕ
  | .leaf _ pts _ => pts.length
  | .tree _ cs => countAux cs

def countAux : List SpatialNode → ℕ
  | [] => 0
  | c :: rest => count c + countAux rest

end

mutual

/-- The `search_closest`: a leaf scans its bucket (skipping the query itself); a
tree first seeds from the child containing the query, then visits every other
child that survives the prune test. -/
def search_closest : SpatialNode → ClosestSearchResult → Except PyErr ClosestSearchResult
  | .leaf _ pts _, r => .ok (ClosestSearchResult.scanPoints pts r)
  | .tree _ cs, r => do
      let r1 ← seedLoop cs r
      pruneLoop cs r1

/-- First loop of `SpatialTree.search_closest`: recurse into the first child
whose region contains the query point, then `break`. -/
def seedLoop : List SpatialNode → ClosestSearchResult → Except PyErr ClosestSearchResult
  | [], r => .ok r
  | c :: rest, r =>
      if c.bounds.containsP r.point then search_closest c r
      else seedLoop rest r

/-- Second loop of `SpatialTree.search_closest`: for every child not holding
the query point, recurse iff the prune test `intersects` keeps it. -/
def pruneLoop : List SpatialNode → ClosestSearchResult → Except PyErr ClosestSearchResult
  | [], r => .ok r
  | c :: rest, r =>
      if ¬ c.bounds.containsP r.point then do
        let b ← r.intersects c.bounds
        let r' ← if b then search_closest c r else .ok r
        pruneLoop rest r'
      else pruneLoop rest r

end

/-- The `SpatialTree.__init__` with `leaves=None`: the initial leaves are the
split of an empty leaf over the whole region (the source's default capacity
is `8`). -/
def init (b : Rectangle) (m : ℕ) : SpatialNode :=
  .tree b (splitLeaf b [] m)

end SpatialNode


namespace SpatialNode

/-- Well-formedness of reachable index structures: every leaf has a properly
constructed region containing all its stored points, and every subtree's
children exactly cover the subtree's region (a point is in the region iff
some child's region holds it). -/
inductive WF : SpatialNode → Prop where
  | leaf (b : Rectangle) (pts : List Point) (m : ℕ) (hb : b.proper)
      (hpts : ∀ p ∈ pts, b.containsP p) : WF (.leaf b pts m)
  | tree (b : Rectangle) (cs : List SpatialNode) (hb : b.proper)
      (hcov : ∀ p : Point, b.containsP p ↔ ∃ c ∈ cs, c.bounds.containsP p)
      (hcs : ∀ c ∈ cs, WF c) : WF (.tree b cs)

/-- All nodes produced while distributing points into split leaves are leaves. -/
def IsLeafNode (c : SpatialNode) : Prop := ∃ b' pts' m', c = .leaf b' pts' m'

/-- A sequence of `SpatialTree.add` calls. -/
def addAll : SpatialNode → List Point → Except PyErr SpatialNode
  | t, [] => .ok t
  | t, p :: ps => do
      let t' ← add t p
      addAll t' ps

end SpatialNode

/-- The Cauchy–Schwarz style bound justifying totality of the embedded
`distance_rad`: in exact arithmetic the law-of-cosines expression never leaves
the domain of `acos`. -/
theorem cosArg_mem_Icc (p q : Point) : -1 ≤ cosArg p q ∧ cosArg p q ≤ 1 := by
  have hp := sin_sq_add_cos_sq p.lat
  have hq := sin_sq_add_cos_sq q.lat
  have hc1 := neg_one_le_cos (p.lon - q.lon)
  have hc2 := cos_le_one (p.lon - q.lon)
  have hsq : (cosArg p q) ^ 2 ≤ 1 := by
    have hk : cos (p.lon - q.lon) ^ 2 ≤ 1 := by nlinarith
    have hstep : sin q.lat ^ 2 + cos q.lat ^ 2 * cos (p.lon - q.lon) ^ 2 ≤ 1 := by
      nlinarith [sq_nonneg (cos q.lat)]
    have hcs :=
      sq_nonneg (sin p.lat * (cos q.lat * cos (p.lon - q.lon)) - cos p.lat * sin q.lat)
    have expand : (cosArg p q) ^ 2
        + (sin p.lat * (cos q.lat * cos (p.lon - q.lon)) - cos p.lat * sin q.lat) ^ 2
        = (sin p.lat ^ 2 + cos p.lat ^ 2)
          * (sin q.lat ^ 2 + cos q.lat ^ 2 * cos (p.lon - q.lon) ^ 2) := by
      simp only [cosArg]; ring
    rw [hp, one_mul] at expand
    linarith
  constructor
  · nlinarith [sq_nonneg (cosArg p q + 1)]
  · nlinarith [sq_nonneg (cosArg p q - 1)]


/-- C5: for a properly constructed rectangle, a point lies in the rectangle
(half-open rule) iff it lies in exactly one of the four sub-rectangles
returned by `centric_split`: the children are pairwise disjoint and tile the
parent exactly. -/
theorem centric_split_partition (r : Rectangle)
    (hb : r.bottom ≤ r.top) (hl : r.left ≤ r.right) (p : Point) :
    r.containsP p ↔
      ∃! i : Fin 4, (r.centric_split.getD i.val ⟨0, 0, 0, 0⟩).containsP p := by
  constructor
  · rintro ⟨h1, h2, h3, h4⟩
    rcases lt_or_le p.lat ((r.top + r.bottom) / 2) with hx | hx
    · rcases lt_or_le p.lon ((r.right + r.left) / 2) with hy | hy
      · refine ⟨⟨0, by norm_num⟩, ⟨h1, hx, h3, hy⟩, ?_⟩
        intro j hj
        obtain ⟨jv, hjv⟩ := j
        interval_cases jv
        · rfl
        · have hj' : (Rectangle.mk r.bottom ((r.right + r.left) / 2)
              ((r.top + r.bottom) / 2) r.right).containsP p := hj
          simp only [Rectangle.containsP] at hj'
          exact absurd hj'.2.2.1 (by linarith)
        · have hj' : (Rectangle.mk ((r.top + r.bottom) / 2) r.left
              r.top ((r.right + r.left) / 2)).containsP p := hj
          simp only [Rectangle.containsP] at hj'
          exact absurd hj'.1 (by linarith)
        · have hj' : (Rectangle.mk ((r.top + r.bottom) / 2) ((r.right + r.left) / 2)
              r.top r.right).containsP p := hj
          simp only [Rectangle.containsP] at hj'
          exact absurd hj'.1 (by linarith)
      · refine ⟨⟨1, by norm_num⟩, ⟨h1, hx, hy, h4⟩, ?_⟩
        intro j hj
        obtain ⟨jv, hjv⟩ := j
        interval_cases jv
        · have hj' : (Rectangle.mk r.bottom r.left
              ((r.top + r.bottom) / 2) ((r.right + r.left) / 2)).containsP p := hj
          simp only [Rectangle.containsP] at hj'
          exact absurd hj'.2.2.2 (by linarith)
        · rfl
        · have hj' : (Rectangle.mk ((r.top + r.bottom) / 2) r.left
              r.top ((r.right + r.left) / 2)).containsP p := hj
          simp only [Rectangle.containsP] at hj'
          exact absurd hj'.1 (by linarith)
        · have hj' : (Rectangle.mk ((r.top + r.bottom) / 2) ((r.right + r.left) / 2)
              r.top r.right).containsP p := hj
          simp only [Rectangle.containsP] at hj'
          exact absurd hj'.1 (by linarith)
    · rcases lt_or_le p.lon ((r.right + r.left) / 2) with hy | hy
      · refine ⟨⟨2, by norm_num⟩, ⟨hx, h2, h3, hy⟩, ?_⟩
        intro j hj
        obtain ⟨jv, hjv⟩ := j
        interval_cases jv
        · have hj' : (Rectangle.mk r.bottom r.left
              ((r.top + r.bottom) / 2) ((r.right + r.left) / 2)).containsP p := hj
          simp only [Rectangle.containsP] at hj'
          exact absurd hj'.2.1 (by linarith)
        · have hj' : (Rectangle.mk r.bottom ((r.right + r.left) / 2)
              ((r.top + r.bottom) / 2) r.right).containsP p := hj
          simp only [Rectangle.containsP] at hj'
          exact absurd hj'.2.1 (by linarith)
        · rfl
        · have hj' : (Rectangle.mk ((r.top + r.bottom) / 2) ((r.right + r.left) / 2)
              r.top r.right).containsP p := hj
          simp only [Rectangle.containsP] at hj'
          exact absurd hj'.2.2.1 (by linarith)
      · refine ⟨⟨3, by norm_num⟩, ⟨hx, h2, hy, h4⟩, ?_⟩
        intro j hj
        obtain ⟨jv, hjv⟩ := j
        interval_cases jv
        · have hj' : (Rectangle.mk r.bottom r.left
              ((r.top + r.bottom) / 2) ((r.right + r.left) / 2)).containsP p := hj
          simp only [Rectangle.containsP] at hj'
          exact absurd hj'.2.1 (by linarith)
        · have hj' : (Rectangle.mk r.bottom ((r.right + r.left) / 2)
              ((r.top + r.bottom) / 2) r.right).containsP p := hj
          simp only [Rectangle.containsP] at hj'
          exact absurd hj'.2.1 (by linarith)
        · have hj' : (Rectangle.mk ((r.top + r.bottom) / 2) r.left
              r.top ((r.right + r.left) / 2)).containsP p := hj
          simp only [Rectangle.containsP] at hj'
          exact absurd hj'.2.2.2 (by linarith)
        · rfl
  · rintro ⟨i, hi, -⟩
    obtain ⟨iv, hiv⟩ := i
    interval_cases iv
    · have hi' : (Rectangle.mk r.bottom r.left
          ((r.top + r.bottom) / 2) ((r.right + r.left) / 2)).containsP p := hi
      simp only [Rectangle.containsP] at hi'
      obtain ⟨a1, a2, a3, a4⟩ := hi'
      exact ⟨a1, by linarith, a3, by linarith⟩
    · have hi' : (Rectangle.mk r.bottom ((r.right + r.left) / 2)
          ((r.top + r.bottom) / 2) r.right).containsP p := hi
      simp only [Rectangle.containsP] at hi'
      obtain ⟨a1, a2, a3, a4⟩ := hi'
      exact ⟨a1, by linarith, by linarith, a4⟩
    · have hi' : (Rectangle.mk ((r.top + r.bottom) / 2) r.left
          r.top ((r.right + r.left) / 2)).containsP p := hi
      simp only [Rectangle.containsP] at hi'
      obtain ⟨a1, a2, a3, a4⟩ := hi'
      exact ⟨by linarith, a2, a3, by linarith⟩
    · have hi' : (Rectangle.mk ((r.top + r.bottom) / 2) ((r.right + r.left) / 2)
          r.top r.right).containsP p := hi
      simp only [Rectangle.containsP] at hi'
      obtain ⟨a1, a2, a3, a4⟩ := hi'
      exact ⟨by linarith, a2, by linarith, a4⟩

/-- Witness for C5 at the unit rectangle and its bottom-left corner point. -/
theorem centric_split_partition_witness :
    ∃! i : Fin 4,
      ((Rectangle.mk 0 0 1 1).centric_split.getD i.val ⟨0, 0, 0, 0⟩).containsP
        ⟨7, 0, 0⟩ :=
  (centric_split_partition ⟨0, 0, 1, 1⟩ (by norm_num) (by norm_num) ⟨7, 0, 0⟩).mp
    ⟨le_refl 0, by norm_num, le_refl 0, by norm_num⟩


/-- C3: `intersects` returns `True` whenever no best exists or the query point
lies inside the candidate region; in every other case (whenever its minimum
possible distance computation returns a value `m` at all) it returns `True`
iff `m ≤` the current best distance — equivalently the region is pruned iff
`m` is strictly greater than the best distance. -/
theorem intersects_spec (r : ClosestSearchResult) (bounds : Rectangle) :
    ((r.closest = none ∨ bounds.containsP r.point) →
        r.intersects bounds = .ok true) ∧
    (∀ c d m, r.closest = some (c, d) → ¬ bounds.containsP r.point →
        r.min_dist bounds = .ok m →
        (r.intersects bounds = .ok true ↔ m ≤ d)) := by
  constructor
  · rintro (h | h)
    · simp [ClosestSearchResult.intersects, h]
    · match hc : r.closest with
      | none => simp [ClosestSearchResult.intersects, hc]
      | some (c, bd) => simp [ClosestSearchResult.intersects, hc, h]
  · intro c d m hc hnc hm
    simp [ClosestSearchResult.intersects, hc, hnc, hm]

/-- Witness for C3 in the second (pruning comparison) case: the query sits
due north of the unit rectangle at gap `1`, the current best distance is `2`,
so the region must be visited. -/
theorem intersects_spec_witness :
    ClosestSearchResult.intersects ⟨⟨0, 2, 1 / 2⟩, some (⟨1, 0, 0⟩, 2)⟩ ⟨0, 0, 1, 1⟩
      = .ok true := by
  have hnc : ¬ (Rectangle.mk 0 0 1 1).containsP ⟨0, 2, 1 / 2⟩ := by
    norm_num [Rectangle.containsP]
  have hm : ClosestSearchResult.min_dist ⟨⟨0, 2, 1 / 2⟩, some (⟨1, 0, 0⟩, 2)⟩ ⟨0, 0, 1, 1⟩
      = .ok 1 := by
    rw [ClosestSearchResult.min_dist, if_pos (by constructor <;> norm_num)]
    norm_num [abs_of_nonneg]
  exact ((intersects_spec ⟨⟨0, 2, 1 / 2⟩, some (⟨1, 0, 0⟩, 2)⟩ ⟨0, 0, 1, 1⟩).2
    ⟨1, 0, 0⟩ 2 1 rfl hnc hm).mpr (by norm_num)

/-- C4 (evidence for the missing clamp): at any identical pair the unclamped
law-of-cosines expression the source passes to `math.acos` equals exactly `1`
— the very boundary of `acos`'s domain, with zero margin for the upward
floating-point rounding the spec's defensive clamp is meant to absorb — and
the exact-arithmetic distance is `0`. -/
theorem distance_rad_self_boundary (p : Point) :
    cosArg p p = 1 ∧ p.distance_rad p = 0 := by
  have h : cosArg p p = 1 := by
    have hs := sin_sq_add_cos_sq p.lat
    simp only [cosArg, sub_self, cos_zero, mul_one]
    nlinarith
  exact ⟨h, by rw [Point.distance_rad, h, arccos_one]⟩

/-- The `update` never changes the query point. -/
theorem update_point (r : ClosestSearchResult) (p : Point) :
    (r.update p).point = r.point := by
  rw [ClosestSearchResult.update]
  match hc : r.closest with
  | none => rfl
  | some (c, bd) => dsimp only; split <;> rfl

/-- The `update` either keeps the previous best or installs the offered point. -/
theorem update_closest_cases (r : ClosestSearchResult) (p : Point) :
    (r.update p).closest = r.closest ∨
      (r.update p).closest = some (p, r.distance p) := by
  rw [ClosestSearchResult.update]
  match hc : r.closest with
  | none => exact Or.inr rfl
  | some (c, bd) => dsimp only; split <;> [exact Or.inr rfl; exact Or.inl hc]

/-- The `scanPoints` never changes the query point. -/
theorem scanPoints_point (pts : List Point) :
    ∀ r : ClosestSearchResult, (ClosestSearchResult.scanPoints pts r).point = r.point := by
  induction pts with
  | nil => intro r; rfl
  | cons p ps ih =>
      intro r
      simp only [ClosestSearchResult.scanPoints, List.foldl_cons] at *
      split
      · exact ih r
      · rw [ih (r.update p), update_point]

/-- After a scan, the best is either untouched or some non-query stored point. -/
theorem scanPoints_closest_cases (pts : List Point) :
    ∀ r : ClosestSearchResult,
      (ClosestSearchResult.scanPoints pts r).closest = r.closest ∨
        ∃ c d, (ClosestSearchResult.scanPoints pts r).closest = some (c, d) ∧
          c ∈ pts ∧ c ≠ r.point := by
  induction pts with
  | nil => intro r; exact Or.inl rfl
  | cons p ps ih =>
      intro r
      simp only [ClosestSearchResult.scanPoints, List.foldl_cons] at *
      split
      · rcases ih r with h | ⟨c, d, h1, h2, h3⟩
        · exact Or.inl h
        · exact Or.inr ⟨c, d, h1, List.mem_cons_of_mem _ h2, h3⟩
      · rename_i hp
        rcases ih (r.update p) with h | ⟨c, d, h1, h2, h3⟩
        · rcases update_closest_cases r p with h' | h'
          · exact Or.inl (h.trans h')
          · exact Or.inr ⟨p, r.distance p, h.trans h', List.mem_cons_self _ _, hp⟩
        · rw [update_point] at h3
          exact Or.inr ⟨c, d, h1, List.mem_cons_of_mem _ h2, h3⟩

/-- C8: the leaf scan skips exactly the stored point identical (`==`, i.e.
same object, modelled by full value equality including the identity tag) to
the query: starting from an empty best, any best it produces is a stored
point different from the query (never a self-match); and a distinct stored
point whose coordinates coincide with the query's is still examined and is
returned as best, at distance `0`. -/
theorem leaf_search_self_exclusion :
    (∀ (pts : List Point) (r : ClosestSearchResult), r.closest = none →
        ∀ c d, (ClosestSearchResult.scanPoints pts r).closest = some (c, d) →
          c ∈ pts ∧ c ≠ r.point) ∧
    (∀ q p : Point, p.tag ≠ q.tag → p.lat = q.lat → p.lon = q.lon →
        (ClosestSearchResult.scanPoints [q, p] ⟨q, none⟩).closest = some (p, 0)) := by
  constructor
  · intro pts r hnone c d h
    rcases scanPoints_closest_cases pts r with h' | ⟨c', d', h1, h2, h3⟩
    · rw [h, hnone] at h'; exact absurd h' (by simp)
    · rw [h] at h1
      obtain ⟨rfl, rfl⟩ : c' = c ∧ d' = d := by
        have := h1.symm
        simp only [Option.some.injEq, Prod.mk.injEq] at this
        exact this
      exact ⟨h2, h3⟩
  · intro q p htag hlat hlon
    have hpq : ¬ (p = q) := by
      intro h; exact htag (by rw [h])
    have step1 : ClosestSearchResult.scanPoints [q, p] ⟨q, none⟩
        = ClosestSearchResult.update ⟨q, none⟩ p := by
      simp only [ClosestSearchResult.scanPoints, List.foldl_cons, List.foldl_nil, if_true]
      rw [if_neg (show ¬ p = ({ point := q, closest := none } :
        ClosestSearchResult).point from hpq)]
    rw [step1]
    simp only [ClosestSearchResult.update, ClosestSearchResult.distance,
      Point.distance_rad, cosArg, hlat, hlon, sub_self, cos_zero, mul_one]
    have hs : sin q.lat * sin q.lat + cos q.lat * cos q.lat = 1 := by
      nlinarith [sin_sq_add_cos_sq q.lat]
    rw [hs, arccos_one]

/-- Witness for C8's universally quantified part: a bucket holding the query
and a coordinate-duplicate of it yields the duplicate as best, which is indeed
a stored point different from the query. -/
theorem leaf_search_self_exclusion_witness :
    (⟨1, 0, 0⟩ : Point) ∈ [(⟨0, 0, 0⟩ : Point), ⟨1, 0, 0⟩] ∧
      (⟨1, 0, 0⟩ : Point) ≠ ⟨0, 0, 0⟩ :=
  leaf_search_self_exclusion.1 [⟨0, 0, 0⟩, ⟨1, 0, 0⟩] ⟨⟨0, 0, 0⟩, none⟩ rfl ⟨1, 0, 0⟩ 0
    (leaf_search_self_exclusion.2 ⟨0, 0, 0⟩ ⟨1, 0, 0⟩ (by norm_num) rfl rfl)

/-- Evaluate `fmod` once the integer quotient is known. -/
theorem fmod_eq (x y : ℝ) (k : ℤ) (h1 : (k : ℝ) ≤ x / y) (h2 : x / y < k + 1) :
    fmod x y = x - y * k := by
  have hk : ⌊x / y⌋ = k := by
    rw [Int.floor_eq_iff]
    exact ⟨h1, by exact_mod_cast h2⟩
  rw [fmod, hk]

/-- C2 (amended): the branch of `intersects` that the spec describes as the
antipodal case fires exactly on the source's modulo-π condition
`(left + π) % π ≤ (lon + π) % π ≤ (right + π) % π` (Python float `%`, i.e.
`fmod` here), not on membership of the antipodal longitude modulo a full
turn; when a best distance `d` exists, the query point lies outside the
region, the first branch's plain test fails and that modulo-π condition
holds, the pruning decision compares `d` against exactly the pole-reflected
formula `min (π - |lat + top|) (π - |lat + bottom|)`. -/
theorem intersects_antipodal_branch_mod_pi (r : ClosestSearchResult)
    (bounds : Rectangle) (c : Point) (d : ℝ) (hc : r.closest = some (c, d))
    (hnc : ¬ bounds.containsP r.point)
    (h1 : ¬ (bounds.left ≤ r.point.lon ∧ r.point.lon ≤ bounds.right))
    (h2 : fmod (bounds.left + π) π ≤ fmod (r.point.lon + π) π ∧
        fmod (r.point.lon + π) π ≤ fmod (bounds.right + π) π) :
    r.intersects bounds
      = .ok (decide (min (π - |r.point.lat + bounds.top|)
          (π - |r.point.lat + bounds.bottom|) ≤ d)) := by
  simp only [ClosestSearchResult.intersects, hc]
  rw [if_neg hnc, ClosestSearchResult.min_dist, if_neg h1, if_pos h2]
  rfl

/-- Witness for C2's amended theorem: a region due west-southwest of a query
on the other side of the `lon = 0` meridian, entering through the modulo-π
branch; the pole-reflected gap exceeds the best distance `1`, so the region
is pruned. -/
theorem intersects_antipodal_branch_mod_pi_witness :
    ClosestSearchResult.intersects ⟨⟨0, π / 4, π / 2⟩, some (⟨1, 0, 0⟩, 1)⟩
      ⟨0, -(π / 2), π / 4, -(π / 4)⟩ = .ok false := by
  have hπ := pi_gt_three
  have hnc : ¬ (Rectangle.mk 0 (-(π / 2)) (π / 4) (-(π / 4))).containsP
      ⟨0, π / 4, π / 2⟩ := by
    rintro ⟨-, -, -, h4⟩
    simp only at h4
    linarith
  have h1 : ¬ ((-(π / 2) : ℝ) ≤ π / 2 ∧ (π / 2 : ℝ) ≤ -(π / 4)) := by
    rintro ⟨-, h⟩; linarith
  have hm1 : fmod (-(π / 2) + π) π = π / 2 := by
    have h := fmod_eq (-(π / 2) + π) π 0 (by rw [le_div_iff₀ pi_pos]; push_cast; linarith)
      (by rw [div_lt_iff₀ pi_pos]; push_cast; linarith)
    rw [h]; push_cast; ring
  have hm2 : fmod (π / 2 + π) π = π / 2 := by
    have h := fmod_eq (π / 2 + π) π 1 (by rw [le_div_iff₀ pi_pos]; push_cast; linarith)
      (by rw [div_lt_iff₀ pi_pos]; push_cast; linarith)
    rw [h]; push_cast; ring
  have hm3 : fmod (-(π / 4) + π) π = 3 * π / 4 := by
    have h := fmod_eq (-(π / 4) + π) π 0 (by rw [le_div_iff₀ pi_pos]; push_cast; linarith)
      (by rw [div_lt_iff₀ pi_pos]; push_cast; linarith)
    rw [h]; push_cast; ring
  have h2 : fmod (-(π / 2) + π) π ≤ fmod (π / 2 + π) π ∧
      fmod (π / 2 + π) π ≤ fmod (-(π / 4) + π) π := by
    rw [hm1, hm2, hm3]; constructor <;> linarith
  have h := intersects_antipodal_branch_mod_pi ⟨⟨0, π / 4, π / 2⟩, some (⟨1, 0, 0⟩, 1)⟩
    ⟨0, -(π / 2), π / 4, -(π / 4)⟩ ⟨1, 0, 0⟩ 1 rfl hnc h1 h2
  rw [h]
  have habs1 : |(π / 4 : ℝ) + π / 4| = π / 2 := by
    rw [abs_of_nonneg (by linarith)]; ring
  have habs2 : |(π / 4 : ℝ) + 0| = π / 4 := by
    rw [abs_of_nonneg (by linarith)]; ring
  simp only [habs1, habs2]
  have hdec : ¬ (min (π - π / 2) (π - π / 4) ≤ 1) := by
    rw [min_def]
    split <;> linarith
  rw [decide_eq_false hdec]

/-- The `arccos` of a negative number exceeds a quarter turn. -/
theorem arccos_gt_pi_div_two_of_neg {x : ℝ} (h : x < 0) : π / 2 < arccos x := by
  rw [arccos_eq_pi_div_two_sub_arcsin]
  have h2 : arcsin x < 0 := by
    by_contra hcon
    exact absurd (arcsin_nonneg.mp (not_lt.mp hcon)) (not_le.mpr h)
  linarith

/-- A strict lower bound on a left fold of `min`. -/
theorem lt_foldl_min {c : ℝ} : ∀ (xs : List ℝ) (x : ℝ), c < x →
    (∀ y ∈ xs, c < y) → c < xs.foldl min x := by
  intro xs
  induction xs with
  | nil => intro x hx _; simpa using hx
  | cons y ys ih =>
      intro x hx hxs
      simp only [List.foldl_cons]
      exact ih (min x y) (lt_min hx (hxs y (List.mem_cons_self y ys)))
        (fun z hz => hxs z (List.mem_cons_of_mem _ hz))

/-- A strict lower bound on Python `min` of a nonempty list. -/
theorem lt_pymin_cons {c x : ℝ} {xs : List ℝ} (hx : c < x) (hxs : ∀ y ∈ xs, c < y) :
    c < pymin (x :: xs) := by
  simp only [pymin]
  exact lt_foldl_min xs x hx hxs

/-- The `math.radians` of a positive input is positive. -/
theorem radians_pos {v : ℝ} (h : 0 < v) : 0 < radians v := by
  rw [radians]
  exact div_pos (mul_pos h pi_pos) (by norm_num)

/-- The `math.radians` squashes anything up to `4` (in particular any value up to
`π`) below `1/10`. -/
theorem radians_le_tenth {v : ℝ} (h0 : 0 ≤ v) (h4 : v ≤ 4) : radians v ≤ 1 / 10 := by
  rw [radians]
  have hπ : π < 3.15 := pi_lt_d2
  have h1 : v * π ≤ 4 * π := mul_le_mul_of_nonneg_right h4 (le_of_lt pi_pos)
  linarith

/-- Absolute-value version of `radians_le_tenth`. -/
theorem abs_radians_le_tenth {v : ℝ} (h4 : |v| ≤ 4) : |radians v| ≤ 1 / 10 := by
  rw [radians, abs_div, abs_mul, abs_of_pos pi_pos,
    abs_of_pos (show (0:ℝ) < 180 by norm_num)]
  have hπ : π < 3.15 := pi_lt_d2
  have h1 : |v| * π ≤ 4 * π := mul_le_mul_of_nonneg_right h4 (le_of_lt pi_pos)
  linarith

/-- For a query at `(π/4, -π)`, the law-of-cosines expression against any
point squashed near the origin (as the double-converted `corners` and
meridian intercepts are) is negative: such points sit more than a quarter
turn away. -/
theorem cosArg_neg_of_small (t1 t2 : ℕ) (la lo : ℝ) (hla0 : 0 < la)
    (hla : la ≤ 1 / 10) (hlo : |lo| ≤ 1 / 10) :
    cosArg ⟨t1, π / 4, -π⟩ ⟨t2, la, lo⟩ < 0 := by
  simp only [cosArg]
  have hsin : sin la < 1 / 10 := lt_of_lt_of_le (sin_lt hla0) hla
  have hsq1 : la ^ 2 ≤ 1 / 100 := by nlinarith
  have hc1 : (199 : ℝ) / 200 ≤ cos la := by
    have h := one_sub_sq_div_two_le_cos (x := la)
    linarith
  have hsq2 : lo ^ 2 ≤ 1 / 100 := by
    rw [← sq_abs lo]
    nlinarith [abs_nonneg lo]
  have hc2 : (199 : ℝ) / 200 ≤ cos lo := by
    have h := one_sub_sq_div_two_le_cos (x := lo)
    linarith
  have hkey : sin la < cos la * cos lo := by nlinarith
  have hcc : cos ((-π) - lo) = -cos lo := by
    rw [show (-π) - lo = -(lo + π) by ring, cos_neg, cos_add_pi]
  rw [hcc, sin_pi_div_four, cos_pi_div_four]
  have hs2 : (0 : ℝ) < √2 / 2 := by positivity
  nlinarith

/-- Distance from the query `(π/4, -π)` to any double-converted point built
from a latitude in `(0, 4]` and a longitude in `[-4, 4]` exceeds `π/2`. -/
theorem dist_gt_of_small (cl : Option (Point × ℝ)) (a b : ℝ)
    (h0 : 0 < a) (h4 : a ≤ 4) (hb : |b| ≤ 4) :
    π / 2 < ClosestSearchResult.distance ⟨⟨0, π / 4, -π⟩, cl⟩ (mkPoint a b) :=
  arccos_gt_pi_div_two_of_neg
    (cosArg_neg_of_small 0 0 (radians a) (radians b) (radians_pos h0)
      (radians_le_tenth h0.le h4) (abs_radians_le_tenth hb))

/-- Evaluation of the fallback (corners and meridian intercepts) branch of
`min_dist` for a query with nonzero latitude. -/
theorem min_dist_fallback_eval (r : ClosestSearchResult) (bounds : Rectangle)
    (h1 : ¬ (bounds.left ≤ r.point.lon ∧ r.point.lon ≤ bounds.right))
    (h2 : ¬ (fmod (bounds.left + π) π ≤ fmod (r.point.lon + π) π ∧
        fmod (r.point.lon + π) π ≤ fmod (bounds.right + π) π))
    (h0 : ¬ (r.point.lat = 0)) :
    r.min_dist bounds = .ok (pymin ((bounds.corners ++
      [mkPoint (π / 2 - arctan (cos (r.delta_lon bounds.left) / tan |r.point.lat|))
        bounds.left,
       mkPoint (π / 2 - arctan (cos (r.delta_lon bounds.right) / tan |r.point.lat|))
        bounds.right]).map r.distance)) := by
  rw [ClosestSearchResult.min_dist, if_neg h1, if_neg h2]
  simp only [ClosestSearchResult.intercept_meridian, ClosestSearchResult.lat_at_meridian,
    if_neg h0]
  rfl

/-- C2 counterexample: query `(π/4, -π)`, candidate region
`[π/6, π/3] × [-π/4, π/2]`.  The antipodal longitude of the query (`0`, with
`k = 0` in the modulo-full-turn comparison) lies inside the region's
longitude span while the query longitude does not, and the query is outside
the region with a best present — yet `min_dist` does NOT produce the
pole-reflected value `min (π - |lat+top|) (π - |lat+bottom|)` the claim
prescribes: the source's modulo-π test fails here (the span crosses the `0`
meridian), so the corner/intercept fallback runs instead and returns a value
exceeding `π/2`, while the prescribed value is `5π/12 < π/2`. -/
theorem min_dist_antipodal_claim_counterexample :
    ((-(π / 4) : ℝ) ≤ (-π) + π ∧ ((-π) + π : ℝ) ≤ π / 2) ∧
    ¬ ((-(π / 4) : ℝ) ≤ -π ∧ (-π : ℝ) ≤ π / 2) ∧
    ¬ (Rectangle.mk (π / 6) (-(π / 4)) (π / 3) (π / 2)).containsP ⟨0, π / 4, -π⟩ ∧
    ClosestSearchResult.min_dist ⟨⟨0, π / 4, -π⟩, some (⟨1, 0, 0⟩, 1)⟩
        (Rectangle.mk (π / 6) (-(π / 4)) (π / 3) (π / 2))
      ≠ .ok (min (π - |(π / 4 : ℝ) + π / 3|) (π - |(π / 4 : ℝ) + π / 6|)) := by
  have hπ3 := pi_gt_three
  have hπ4 := pi_lt_four
  refine ⟨⟨by linarith, by linarith⟩, ?_, ?_, ?_⟩
  · rintro ⟨h, -⟩; linarith
  · rintro ⟨-, -, h3, -⟩
    simp only at h3
    linarith
  · intro hEq
    have hb1 : ¬ ((-(π / 4) : ℝ) ≤ -π ∧ (-π : ℝ) ≤ π / 2) := by
      rintro ⟨h, -⟩; linarith
    have hf1 : fmod (-(π / 4) + π) π = 3 * π / 4 := by
      have h := fmod_eq (-(π / 4) + π) π 0
        (by rw [le_div_iff₀ pi_pos]; push_cast; linarith)
        (by rw [div_lt_iff₀ pi_pos]; push_cast; linarith)
      rw [h]; push_cast; ring
    have hf2 : fmod ((-π) + π) π = 0 := by
      have h := fmod_eq ((-π) + π) π 0
        (by rw [le_div_iff₀ pi_pos]; push_cast; linarith)
        (by rw [div_lt_iff₀ pi_pos]; push_cast; linarith)
      rw [h]; push_cast; ring
    have hb2 : ¬ (fmod (-(π / 4) + π) π ≤ fmod ((-π) + π) π ∧
        fmod ((-π) + π) π ≤ fmod (π / 2 + π) π) := by
      rw [hf1, hf2]
      rintro ⟨h, -⟩; linarith
    have hlat0 : ¬ ((π / 4 : ℝ) = 0) := by
      intro h; linarith
    rw [min_dist_fallback_eval _ _ hb1 hb2 hlat0] at hEq
    simp only [Except.ok.injEq] at hEq
    set st : ClosestSearchResult := ⟨⟨0, π / 4, -π⟩, some (⟨1, 0, 0⟩, 1)⟩ with hst
    have hbig : π / 2 < pymin (((Rectangle.mk (π / 6) (-(π / 4)) (π / 3) (π / 2)).corners ++
        [mkPoint (π / 2 - arctan (cos (st.delta_lon (-(π / 4))) / tan |(π / 4 : ℝ)|)) (-(π / 4)),
         mkPoint (π / 2 - arctan (cos (st.delta_lon (π / 2)) / tan |(π / 4 : ℝ)|)) (π / 2)]).map
        st.distance) := by
      have habs1 : |(-(π / 4) : ℝ)| ≤ 4 := by
        rw [abs_neg, abs_of_nonneg (by positivity)]; linarith
      have habs2 : |(π / 2 : ℝ)| ≤ 4 := by
        rw [abs_of_nonneg (by positivity)]; linarith
      simp only [Rectangle.corners, List.cons_append, List.nil_append,
        List.map_cons, List.map_nil]
      apply lt_pymin_cons
      · exact dist_gt_of_small _ _ _ (by positivity) (by linarith) habs1
      · intro y hy
        simp only [List.mem_cons, List.not_mem_nil, or_false] at hy
        rcases hy with rfl | rfl | rfl | rfl | rfl
        · exact dist_gt_of_small _ _ _ (by positivity) (by linarith) habs2
        · exact dist_gt_of_small _ _ _ (by positivity) (by linarith) habs1
        · exact dist_gt_of_small _ _ _ (by positivity) (by linarith) habs2
        · have ha := arctan_lt_pi_div_two (cos (st.delta_lon (-(π / 4))) / tan |(π / 4 : ℝ)|)
          have hb := neg_pi_div_two_lt_arctan (cos (st.delta_lon (-(π / 4))) / tan |(π / 4 : ℝ)|)
          exact dist_gt_of_small _ _ _ (by linarith) (by linarith) habs1
        · have ha := arctan_lt_pi_div_two (cos (st.delta_lon (π / 2)) / tan |(π / 4 : ℝ)|)
          have hb := neg_pi_div_two_lt_arctan (cos (st.delta_lon (π / 2)) / tan |(π / 4 : ℝ)|)
          exact dist_gt_of_small _ _ _ (by linarith) (by linarith) habs2
    rw [hEq] at hbig
    have ha1 : |(π / 4 : ℝ) + π / 3| = π / 4 + π / 3 := abs_of_nonneg (by positivity)
    have ha2 : |(π / 4 : ℝ) + π / 6| = π / 4 + π / 6 := abs_of_nonneg (by positivity)
    rw [ha1, ha2] at hbig
    have hmin := min_le_left (π - (π / 4 + π / 3)) (π - (π / 4 + π / 6))
    linarith


/-- C6: `SpatialLeaf.add` raises `OutOfBounds` exactly when the point is not
contained in the leaf's region — and then the stored points are untouched
(the operation produces no new state) — while a contained point is appended
at the end of the bucket. -/
theorem leaf_add_spec (b : Rectangle) (pts : List Point) (m : ℕ) (p : Point) :
    (¬ b.containsP p →
      SpatialNode.add (.leaf b pts m) p = .error .outOfBounds) ∧
    (b.containsP p →
      SpatialNode.add (.leaf b pts m) p = .ok (.leaf b (pts ++ [p]) m)) := by
  constructor
  · intro h
    simp only [SpatialNode.add]
    rw [if_neg h]
  · intro h
    simp only [SpatialNode.add]
    rw [if_pos h]

/-- Witness for C6: both branches, on the unit rectangle. -/
theorem leaf_add_spec_witness :
    SpatialNode.add (.leaf ⟨0, 0, 1, 1⟩ [] 8) ⟨0, 2, 2⟩ = .error .outOfBounds ∧
    SpatialNode.add (.leaf ⟨0, 0, 1, 1⟩ [] 8) ⟨0, 0, 0⟩ =
      .ok (.leaf ⟨0, 0, 1, 1⟩ [⟨0, 0, 0⟩] 8) :=
  ⟨(leaf_add_spec ⟨0, 0, 1, 1⟩ [] 8 ⟨0, 2, 2⟩).1
      (by rintro ⟨-, h, -⟩; simp only at h; norm_num at h),
   (leaf_add_spec ⟨0, 0, 1, 1⟩ [] 8 ⟨0, 0, 0⟩).2
      (by exact ⟨le_refl 0, by norm_num, le_refl 0, by norm_num⟩)⟩

/-- A point lies in a proper rectangle iff it lies in one of the quarters. -/
theorem containsP_centric_split_iff (b : Rectangle) (hb : b.proper) (p : Point) :
    b.containsP p ↔ ∃ r' ∈ b.centric_split, r'.containsP p := by
  constructor
  · rintro ⟨h1, h2, h3, h4⟩
    rcases lt_or_le p.lat ((b.top + b.bottom) / 2) with hx | hx <;>
      rcases lt_or_le p.lon ((b.right + b.left) / 2) with hy | hy
    · exact ⟨⟨b.bottom, b.left, (b.top + b.bottom) / 2, (b.right + b.left) / 2⟩,
        by simp [Rectangle.centric_split], ⟨h1, hx, h3, hy⟩⟩
    · exact ⟨⟨b.bottom, (b.right + b.left) / 2, (b.top + b.bottom) / 2, b.right⟩,
        by simp [Rectangle.centric_split], ⟨h1, hx, hy, h4⟩⟩
    · exact ⟨⟨(b.top + b.bottom) / 2, b.left, b.top, (b.right + b.left) / 2⟩,
        by simp [Rectangle.centric_split], ⟨hx, h2, h3, hy⟩⟩
    · exact ⟨⟨(b.top + b.bottom) / 2, (b.right + b.left) / 2, b.top, b.right⟩,
        by simp [Rectangle.centric_split], ⟨hx, h2, hy, h4⟩⟩
  · obtain ⟨hbt, hlr⟩ := hb
    rintro ⟨r', hr', hcont⟩
    simp only [Rectangle.centric_split, List.mem_cons, List.not_mem_nil, or_false] at hr'
    rcases hr' with rfl | rfl | rfl | rfl <;>
      (simp only [Rectangle.containsP] at hcont ⊢; obtain ⟨a1, a2, a3, a4⟩ := hcont) <;>
      exact ⟨by linarith, by linarith, by linarith, by linarith⟩

/-- The quarters of a proper rectangle are proper. -/
theorem centric_split_proper (b : Rectangle) (hb : b.proper) :
    ∀ r' ∈ b.centric_split, r'.proper := by
  obtain ⟨h1, h2⟩ := hb
  intro r' hr'
  simp only [Rectangle.centric_split, List.mem_cons, List.not_mem_nil, or_false] at hr'
  rcases hr' with rfl | rfl | rfl | rfl <;>
    exact ⟨by simp only [Rectangle.proper] at *; linarith,
           by simp only [Rectangle.proper] at *; linarith⟩


namespace SpatialNode

theorem appendPoint_bounds (c : SpatialNode) (p : Point) :
    (c.appendPoint p).bounds = c.bounds := by
  cases c <;> rfl

theorem placeFirst_bounds (p : Point) : ∀ ls : List SpatialNode,
    (placeFirst ls p).map bounds = ls.map bounds := by
  intro ls
  induction ls with
  | nil => rfl
  | cons c rest ih =>
      simp only [placeFirst]
      split
      · simp [appendPoint_bounds]
      · simp only [List.map_cons, ih]

theorem placeFirst_WF (p : Point) : ∀ ls : List SpatialNode,
    (∀ c ∈ ls, WF c) → ∀ c ∈ placeFirst ls p, WF c := by
  intro ls
  induction ls with
  | nil => intro _ c hc; exact absurd hc (List.not_mem_nil c)
  | cons c0 rest ih =>
      intro h c hc
      simp only [placeFirst] at hc
      split at hc
      · rename_i hcont
        rcases List.mem_cons.mp hc with rfl | hmem
        · have h0 := h c0 (List.mem_cons_self _ _)
          cases h0 with
          | leaf b pts m hb hpts =>
              exact WF.leaf b (pts ++ [p]) m hb (by
                intro q hq
                rcases List.mem_append.mp hq with hq | hq
                · exact hpts q hq
                · rw [List.mem_singleton.mp hq]; exact hcont)
          | tree b cs hb hcov hcs => exact WF.tree b cs hb hcov hcs
        · exact h c (List.mem_cons_of_mem _ hmem)
      · rcases List.mem_cons.mp hc with rfl | hmem
        · exact h c (List.mem_cons_self _ _)
        · exact ih (fun c' hc' => h c' (List.mem_cons_of_mem _ hc')) c hmem

theorem placeFirst_shape (p : Point) : ∀ ls : List SpatialNode,
    (∀ c ∈ ls, IsLeafNode c) → ∀ c ∈ placeFirst ls p, IsLeafNode c := by
  intro ls
  induction ls with
  | nil => intro _ c hc; exact absurd hc (List.not_mem_nil c)
  | cons c0 rest ih =>
      intro h c hc
      simp only [placeFirst] at hc
      split at hc
      · rcases List.mem_cons.mp hc with rfl | hmem
        · obtain ⟨b', pts', m', rfl⟩ := h c0 (List.mem_cons_self _ _)
          exact ⟨b', pts' ++ [p], m', rfl⟩
        · exact h c (List.mem_cons_of_mem _ hmem)
      · rcases List.mem_cons.mp hc with rfl | hmem
        · exact h c (List.mem_cons_self _ _)
        · exact ih (fun c' hc' => h c' (List.mem_cons_of_mem _ hc')) c hmem

theorem placeFirst_toList (p : Point) : ∀ ls : List SpatialNode,
    (∀ c ∈ ls, IsLeafNode c) →
    (∃ c ∈ ls, c.bounds.containsP p) →
    (toListAux (placeFirst ls p) : Multiset Point) = ↑(toListAux ls) + {p} := by
  intro ls
  induction ls with
  | nil => rintro _ ⟨c, hc, -⟩; exact absurd hc (List.not_mem_nil c)
  | cons c0 rest ih =>
      intro hshape hex
      simp only [placeFirst]
      split
      · obtain ⟨b', pts', m', rfl⟩ := hshape c0 (List.mem_cons_self _ _)
        simp only [appendPoint, toListAux, toList]
        rw [← Multiset.coe_add, ← Multiset.coe_add, ← Multiset.coe_add,
          Multiset.coe_singleton, add_right_comm]
      · rename_i hcont
        have hex' : ∃ c ∈ rest, c.bounds.containsP p := by
          rcases hex with ⟨c, hc, hcp⟩
          rcases List.mem_cons.mp hc with rfl | hmem
          · exact absurd hcp hcont
          · exact ⟨c, hmem, hcp⟩
        simp only [toListAux]
        rw [← Multiset.coe_add, ← Multiset.coe_add,
          ih (fun c' hc' => hshape c' (List.mem_cons_of_mem _ hc')) hex', add_assoc]

theorem foldl_place_bounds (pts : List Point) : ∀ ls : List SpatialNode,
    (pts.foldl placeFirst ls).map bounds = ls.map bounds := by
  induction pts with
  | nil => intro ls; rfl
  | cons p ps ih =>
      intro ls
      simp only [List.foldl_cons]
      rw [ih, placeFirst_bounds]

theorem foldl_place_WF (pts : List Point) : ∀ ls : List SpatialNode,
    (∀ c ∈ ls, WF c) → ∀ c ∈ pts.foldl placeFirst ls, WF c := by
  induction pts with
  | nil => intro ls h; exact h
  | cons p ps ih =>
      intro ls h
      simp only [List.foldl_cons]
      exact ih _ (placeFirst_WF p ls h)

theorem foldl_place_shape (pts : List Point) : ∀ ls : List SpatialNode,
    (∀ c ∈ ls, IsLeafNode c) → ∀ c ∈ pts.foldl placeFirst ls, IsLeafNode c := by
  induction pts with
  | nil => intro ls h; exact h
  | cons p ps ih =>
      intro ls h
      simp only [List.foldl_cons]
      exact ih _ (placeFirst_shape p ls h)

/-- The existence side of the covering condition only depends on the bounds. -/
theorem exists_bounds_of_map_eq {cs : List SpatialNode} {rs : List Rectangle}
    (h : cs.map bounds = rs) (p : Point) :
    (∃ c ∈ cs, c.bounds.containsP p) ↔ ∃ r' ∈ rs, r'.containsP p := by
  subst h
  constructor
  · rintro ⟨c, hc, hcp⟩
    exact ⟨c.bounds, List.mem_map_of_mem _ hc, hcp⟩
  · rintro ⟨r', hr', hrp⟩
    obtain ⟨c, hc, rfl⟩ := List.mem_map.mp hr'
    exact ⟨c, hc, hrp⟩

theorem foldl_place_toList (b : Rectangle) (hb : b.proper) (pts : List Point) :
    ∀ ls : List SpatialNode,
    (∀ c ∈ ls, IsLeafNode c) →
    (ls.map bounds = b.centric_split) →
    (∀ p ∈ pts, b.containsP p) →
    (toListAux (pts.foldl placeFirst ls) : Multiset Point)
      = ↑(toListAux ls) + ↑pts := by
  induction pts with
  | nil => intro ls _ _ _; simp
  | cons p ps ih =>
      intro ls hshape hbnd hpts
      simp only [List.foldl_cons]
      have hex : ∃ c ∈ ls, c.bounds.containsP p := by
        have hc : b.containsP p := hpts p (List.mem_cons_self _ _)
        have h2 := (containsP_centric_split_iff b hb p).mp hc
        exact (exists_bounds_of_map_eq hbnd p).mpr h2
      rw [ih (placeFirst ls p) (placeFirst_shape p ls hshape)
        (by rw [placeFirst_bounds, hbnd])
        (fun q hq => hpts q (List.mem_cons_of_mem _ hq))]
      rw [placeFirst_toList p ls hshape hex, ← Multiset.cons_coe, add_assoc,
        Multiset.singleton_add]

theorem splitLeaf_bounds (b : Rectangle) (pts : List Point) (m : ℕ) :
    (splitLeaf b pts m).map bounds = b.centric_split := by
  rw [splitLeaf, foldl_place_bounds, List.map_map]
  have hcomp : (bounds ∘ fun rect => SpatialNode.leaf rect [] m) = id := by
    funext r'; rfl
  rw [hcomp, List.map_id]

theorem splitLeaf_WF (b : Rectangle) (pts : List Point) (m : ℕ) (hb : b.proper) :
    ∀ c ∈ splitLeaf b pts m, WF c := by
  rw [splitLeaf]
  apply foldl_place_WF
  intro c hc
  obtain ⟨r', hr', rfl⟩ := List.mem_map.mp hc
  exact WF.leaf r' [] m (centric_split_proper b hb r' hr') (by simp)

theorem splitLeaf_toList (b : Rectangle) (pts : List Point) (m : ℕ) (hb : b.proper)
    (hpts : ∀ p ∈ pts, b.containsP p) :
    (toListAux (splitLeaf b pts m) : Multiset Point) = ↑pts := by
  rw [splitLeaf, foldl_place_toList b hb pts _
    (by intro c hc; obtain ⟨r', hr', rfl⟩ := List.mem_map.mp hc; exact ⟨r', [], m, rfl⟩)
    (by
      rw [List.map_map]
      have hcomp : (bounds ∘ fun rect => SpatialNode.leaf rect [] m) = id := by
        funext r'; rfl
      rw [hcomp, List.map_id]) hpts]
  have h0 : toListAux (b.centric_split.map fun rect => SpatialNode.leaf rect [] m) = [] := by
    simp [Rectangle.centric_split, toListAux, toList]
  rw [h0]
  simp

/-- The in-place `split = i` replacement step of `SpatialTree.add` preserves
well-formedness, the region, and the stored multiset. -/
theorem splitStep_spec (c : SpatialNode) (h : WF c) :
    WF (if c.must_split then c.split_of else c) ∧
    (if c.must_split then c.split_of else c).bounds = c.bounds ∧
    ((if c.must_split then c.split_of else c).toList : Multiset Point) = ↑c.toList := by
  by_cases hm : c.must_split
  · rw [if_pos hm]
    cases c with
    | leaf b pts m =>
        cases h with
        | leaf _ _ _ hb hpts =>
            refine ⟨?_, rfl, ?_⟩
            · exact WF.tree b _ hb
                (fun p => (containsP_centric_split_iff b hb p).trans
                  (exists_bounds_of_map_eq (splitLeaf_bounds b pts m) p).symm)
                (splitLeaf_WF b pts m hb)
            · exact splitLeaf_toList b pts m hb hpts
    | tree b cs => simp [must_split] at hm
  · rw [if_neg hm]
    exact ⟨h, rfl, rfl⟩

/-- A successful routed insertion: any well-formed node whose region contains
the point accepts it, stays well-formed over the same region, and gains
exactly that point in its stored multiset. -/
theorem addLoop_ok (n : ℕ)
    (ih : ∀ t : SpatialNode, sizeOf t ≤ n → WF t →
      ∀ p : Point, t.bounds.containsP p →
      ∃ t', add t p = .ok t' ∧ WF t' ∧ t'.bounds = t.bounds ∧
        (t'.toList : Multiset Point) = ↑t.toList + {p}) :
    ∀ (cs : List SpatialNode), (∀ c ∈ cs, sizeOf c ≤ n) → (∀ c ∈ cs, WF c) →
      ∀ p : Point, (∃ c ∈ cs, c.bounds.containsP p) →
      ∃ cs', addLoop cs p = .ok cs' ∧
        cs'.map bounds = cs.map bounds ∧
        (∀ c ∈ cs', WF c) ∧
        (toListAux cs' : Multiset Point) = ↑(toListAux cs) + {p} := by
  intro cs
  induction cs with
  | nil => rintro _ _ p ⟨c, hc, -⟩; exact absurd hc (List.not_mem_nil c)
  | cons c rest ihl =>
      intro hsz hwf p hex
      by_cases hc : c.bounds.containsP p
      · obtain ⟨c', hadd, hwf', hbnd', hml'⟩ :=
          ih c (hsz c (List.mem_cons_self _ _)) (hwf c (List.mem_cons_self _ _)) p hc
        obtain ⟨hWs, hBs, hMs⟩ := splitStep_spec c' hwf'
        refine ⟨(if c'.must_split then c'.split_of else c') :: rest, ?_, ?_, ?_, ?_⟩
        · simp only [addLoop]
          rw [if_pos hc, hadd]
          rfl
        · simp only [List.map_cons]
          rw [hBs, hbnd']
        · intro x hx
          rcases List.mem_cons.mp hx with rfl | hx
          · exact hWs
          · exact hwf x (List.mem_cons_of_mem _ hx)
        · simp only [toListAux]
          rw [← Multiset.coe_add, ← Multiset.coe_add, hMs, hml', add_right_comm]
      · have hex' : ∃ x ∈ rest, x.bounds.containsP p := by
          rcases hex with ⟨x, hx, hxp⟩
          rcases List.mem_cons.mp hx with rfl | hx
          · exact absurd hxp hc
          · exact ⟨x, hx, hxp⟩
        obtain ⟨rest', hrec, hbnds, hwfs, hml⟩ :=
          ihl (fun x hx => hsz x (List.mem_cons_of_mem _ hx))
            (fun x hx => hwf x (List.mem_cons_of_mem _ hx)) p hex'
        refine ⟨c :: rest', ?_, ?_, ?_, ?_⟩
        · simp only [addLoop]
          rw [if_neg hc, hrec]
          rfl
        · simp only [List.map_cons, hbnds]
        · intro x hx
          rcases List.mem_cons.mp hx with rfl | hx
          · exact hwf x (List.mem_cons_self _ _)
          · exact hwfs x hx
        · simp only [toListAux]
          rw [← Multiset.coe_add, ← Multiset.coe_add, hml, add_assoc]

theorem add_ok_of_contains : ∀ (n : ℕ) (t : SpatialNode), sizeOf t ≤ n → WF t →
    ∀ p : Point, t.bounds.containsP p →
    ∃ t', add t p = .ok t' ∧ WF t' ∧ t'.bounds = t.bounds ∧
      (t'.toList : Multiset Point) = ↑t.toList + {p} := by
  intro n
  induction n with
  | zero =>
      intro t ht
      exfalso
      cases t <;> simp at ht
  | succ n ihn =>
      intro t ht hwf p hp
      cases hwf with
      | leaf b pts m hb hpts =>
          have hp' : b.containsP p := hp
          refine ⟨.leaf b (pts ++ [p]) m, ?_, ?_, rfl, ?_⟩
          · simp only [add]
            rw [if_pos hp']
          · exact WF.leaf b _ m hb (by
              intro q hq
              rcases List.mem_append.mp hq with hq | hq
              · exact hpts q hq
              · rw [List.mem_singleton.mp hq]; exact hp)
          · simp only [toList]
            rw [← Multiset.coe_add, Multiset.coe_singleton]
      | tree b cs hb hcov hcs =>
          have hsz : ∀ c ∈ cs, sizeOf c ≤ n := by
            intro c hcmem
            have h1 := List.sizeOf_lt_of_mem hcmem
            have h2 : sizeOf (SpatialNode.tree b cs) = 1 + sizeOf b + sizeOf cs := by
              simp
            omega
          obtain ⟨cs', hloop, hbnds, hwfs, hml⟩ :=
            addLoop_ok n (fun t' hszt hwft => ihn t' hszt hwft) cs hsz hcs p ((hcov p).mp hp)
          refine ⟨.tree b cs', ?_, ?_, rfl, ?_⟩
          · simp only [add]
            rw [hloop]
            rfl
          · refine WF.tree b cs' hb ?_ hwfs
            intro q
            exact (hcov q).trans
              ((exists_bounds_of_map_eq (rfl : cs.map bounds = _) q).trans
                (exists_bounds_of_map_eq hbnds q).symm)
          · simp only [toList]
            exact hml

theorem addLoop_no_contain (p : Point) : ∀ cs : List SpatialNode,
    (∀ c ∈ cs, ¬ c.bounds.containsP p) → addLoop cs p = .ok cs := by
  intro cs
  induction cs with
  | nil => intro _; rfl
  | cons c rest ih =>
      intro h
      simp only [addLoop]
      rw [if_neg (h c (List.mem_cons_self _ _)),
        ih (fun x hx => h x (List.mem_cons_of_mem _ hx))]
      rfl

/-- The freshly constructed tree (four empty leaves over the quarters) is
well-formed whenever its region passes the constructor's `assert`s. -/
theorem init_WF (b : Rectangle) (m : ℕ) (hb : b.proper) : WF (init b m) := by
  rw [init]
  exact WF.tree b _ hb
    (fun p => (containsP_centric_split_iff b hb p).trans
      (exists_bounds_of_map_eq (splitLeaf_bounds b [] m) p).symm)
    (splitLeaf_WF b [] m hb)

/-- The `add` on a freshly built tree silently ignores a point outside the tree's
region. -/
theorem init_add_outside (b : Rectangle) (m : ℕ) (hb : b.proper) (p : Point)
    (hout : ¬ b.containsP p) :
    add (init b m) p = .ok (init b m) := by
  have hnone : ∀ c ∈ splitLeaf b [] m, ¬ c.bounds.containsP p := by
    intro c hcmem hcp
    apply hout
    rw [containsP_centric_split_iff b hb p]
    exact (exists_bounds_of_map_eq (splitLeaf_bounds b [] m) p).mp ⟨c, hcmem, hcp⟩
  show add (.tree b (splitLeaf b [] m)) p = _
  simp only [add]
  rw [addLoop_no_contain p _ hnone]
  rfl


theorem addAll_toList (ps : List Point) : ∀ t : SpatialNode, WF t →
    (∀ p ∈ ps, t.bounds.containsP p) →
    ∃ t', addAll t ps = .ok t' ∧ WF t' ∧ t'.bounds = t.bounds ∧
      (t'.toList : Multiset Point) = ↑t.toList + ↑ps := by
  induction ps with
  | nil => intro t hwf _; exact ⟨t, rfl, hwf, rfl, by simp⟩
  | cons p ps ih =>
      intro t hwf hps
      obtain ⟨t1, hadd, hwf1, hbnd1, hml1⟩ :=
        add_ok_of_contains (sizeOf t) t le_rfl hwf p (hps p (List.mem_cons_self _ _))
      obtain ⟨t', hrest, hwf', hbnd', hml'⟩ := ih t1 hwf1 (by
        intro q hq; rw [hbnd1]; exact hps q (List.mem_cons_of_mem _ hq))
      refine ⟨t', ?_, hwf', hbnd'.trans hbnd1, ?_⟩
      · simp only [addAll]
        rw [hadd]
        exact hrest
      · rw [hml', hml1, ← Multiset.cons_coe, add_assoc, Multiset.singleton_add]


end SpatialNode

/-- C9 (amended): for every sequence of points each contained in the tree's
(properly constructed) bounding region, inserting them in order into a fresh
`SpatialTree` succeeds and iteration yields exactly the multiset of inserted
points — none lost and none duplicated across any number of leaf splits. -/
theorem add_sequence_iteration_multiset (b : Rectangle) (m : ℕ) (hb : b.proper)
    (ps : List Point) (hps : ∀ p ∈ ps, b.containsP p) :
    (SpatialNode.addAll (SpatialNode.init b m) ps).map
      (fun t => (t.toList : Multiset Point)) = .ok ↑ps := by
  obtain ⟨t', h1, -, -, h4⟩ := SpatialNode.addAll_toList ps (SpatialNode.init b m)
    (SpatialNode.init_WF b m hb) (fun p hp => hps p hp)
  rw [h1]
  have h0 : (SpatialNode.toList (SpatialNode.init b m) : Multiset Point)
      = ↑([] : List Point) := by
    show (SpatialNode.toListAux (SpatialNode.splitLeaf b [] m) : Multiset Point) = _
    rw [SpatialNode.splitLeaf_toList b [] m hb (by simp)]
  rw [h0] at h4
  simp only [Except.map]
  rw [h4]
  simp

/-- Witness for C9's amended theorem: one in-bounds point on the unit square. -/
theorem add_sequence_iteration_multiset_witness :
    (SpatialNode.addAll (SpatialNode.init ⟨0, 0, 1, 1⟩ 8) [⟨3, 0, 0⟩]).map
      (fun t => (t.toList : Multiset Point)) = .ok ↑[(⟨3, 0, 0⟩ : Point)] :=
  add_sequence_iteration_multiset ⟨0, 0, 1, 1⟩ 8 ⟨by norm_num, by norm_num⟩
    [⟨3, 0, 0⟩] (by
      intro p hp
      rw [List.mem_singleton.mp hp]
      exact ⟨le_refl 0, by norm_num, le_refl 0, by norm_num⟩)

/-- C9 counterexample to the claim as stated (quantifying over ALL sequences
of points passed to `add`): adding one point outside the tree's region leaves
the tree unchanged, so iteration yields the empty multiset, not the multiset
of added points. -/
theorem add_sequence_iteration_counterexample :
    SpatialNode.addAll (SpatialNode.init ⟨0, 0, 1, 1⟩ 8) [⟨0, 2, 2⟩]
        = .ok (SpatialNode.init ⟨0, 0, 1, 1⟩ 8) ∧
    (SpatialNode.toList (SpatialNode.init ⟨0, 0, 1, 1⟩ 8) : Multiset Point)
        ≠ ↑[(⟨0, 2, 2⟩ : Point)] := by
  constructor
  · have hadd := SpatialNode.init_add_outside ⟨0, 0, 1, 1⟩ 8 ⟨by norm_num, by norm_num⟩
      ⟨0, 2, 2⟩ (by rintro ⟨-, h, -⟩; simp only at h; norm_num at h)
    simp only [SpatialNode.addAll]
    rw [hadd]
    rfl
  · have h0 : SpatialNode.toList (SpatialNode.init ⟨0, 0, 1, 1⟩ 8) = [] := rfl
    rw [h0]
    intro h
    have := Multiset.coe_eq_coe.mp h
    exact absurd this.symm (by simp)

/-- C10: calling `SpatialTree.add` with a point outside the tree's (well
formed) bounding region raises nothing and leaves the tree entirely
unchanged: the result is `ok` with the identical tree, and in particular
`count()` and iteration are the same before and after. -/
theorem tree_add_outside_unchanged (b : Rectangle) (cs : List SpatialNode)
    (hwf : SpatialNode.WF (.tree b cs)) (p : Point)
    (hout : ¬ b.containsP p) :
    SpatialNode.add (.tree b cs) p = .ok (.tree b cs) ∧
    (SpatialNode.add (.tree b cs) p).map SpatialNode.count
      = .ok ((SpatialNode.tree b cs).count) ∧
    (SpatialNode.add (.tree b cs) p).map SpatialNode.toList
      = .ok ((SpatialNode.tree b cs).toList) := by
  cases hwf with
  | tree _ _ hb hcov hcs =>
      have hnone : ∀ c ∈ cs, ¬ c.bounds.containsP p := by
        intro c hcmem hcp
        exact hout ((hcov p).mpr ⟨c, hcmem, hcp⟩)
      have hmain : SpatialNode.add (.tree b cs) p = .ok (.tree b cs) := by
        simp only [SpatialNode.add]
        rw [SpatialNode.addLoop_no_contain p cs hnone]
        rfl
      exact ⟨hmain, by rw [hmain]; rfl, by rw [hmain]; rfl⟩

/-- The `bind` over a successful `Except` computation. -/
theorem ok_bind {α β : Type} (a : α) (f : α → Except PyErr β) :
    (Except.ok a >>= f) = f a := rfl

/-- Method form of `ok_bind`. -/
theorem ok_bind' {α β : Type} (a : α) (f : α → Except PyErr β) :
    (Except.ok a).bind f = f a := rfl

/-- Routing one point into the third of four sibling leaves (no overflow). -/
theorem add_third_of_four (w r1 r2 r3 r4 : Rectangle)
    (ps1 ps2 ps3 ps4 : List Point) (m : ℕ) (p : Point)
    (h1 : ¬ r1.containsP p) (h2 : ¬ r2.containsP p) (h3 : r3.containsP p)
    (hms : ¬ (m < ps3.length + 1)) :
    SpatialNode.add (.tree w [.leaf r1 ps1 m, .leaf r2 ps2 m, .leaf r3 ps3 m,
        .leaf r4 ps4 m]) p
      = .ok (.tree w [.leaf r1 ps1 m, .leaf r2 ps2 m, .leaf r3 (ps3 ++ [p]) m,
        .leaf r4 ps4 m]) := by
  have hms' : ¬ ((SpatialNode.leaf r3 (ps3 ++ [p]) m).must_split = true) := by
    simp [SpatialNode.must_split, List.length_append]
    omega
  simp only [SpatialNode.add, SpatialNode.addLoop, SpatialNode.bounds]
  rw [if_neg h1, if_neg h2, if_pos h3, if_pos h3]
  simp only [ok_bind]
  rw [if_neg hms']
  rfl

/-- Routing one point into the fourth of four sibling leaves (no overflow). -/
theorem add_fourth_of_four (w r1 r2 r3 r4 : Rectangle)
    (ps1 ps2 ps3 ps4 : List Point) (m : ℕ) (p : Point)
    (h1 : ¬ r1.containsP p) (h2 : ¬ r2.containsP p) (h3 : ¬ r3.containsP p)
    (h4 : r4.containsP p) (hms : ¬ (m < ps4.length + 1)) :
    SpatialNode.add (.tree w [.leaf r1 ps1 m, .leaf r2 ps2 m, .leaf r3 ps3 m,
        .leaf r4 ps4 m]) p
      = .ok (.tree w [.leaf r1 ps1 m, .leaf r2 ps2 m, .leaf r3 ps3 m,
        .leaf r4 (ps4 ++ [p]) m]) := by
  have hms' : ¬ ((SpatialNode.leaf r4 (ps4 ++ [p]) m).must_split = true) := by
    simp [SpatialNode.must_split, List.length_append]
    omega
  simp only [SpatialNode.add, SpatialNode.addLoop, SpatialNode.bounds]
  rw [if_neg h1, if_neg h2, if_neg h3, if_pos h4, if_pos h4]
  simp only [ok_bind]
  rw [if_neg hms']
  rfl

/-- The freshly constructed index over the whole globe, with its four initial
leaves written with simplified midpoint arithmetic. -/
theorem init_world_eq :
    SpatialNode.init ⟨-(π / 2), -π, π / 2, π⟩ 8
      = .tree ⟨-(π / 2), -π, π / 2, π⟩
        [.leaf ⟨-(π / 2), -π, 0, 0⟩ [] 8, .leaf ⟨-(π / 2), 0, 0, π⟩ [] 8,
         .leaf ⟨0, -π, π / 2, 0⟩ [] 8, .leaf ⟨0, 0, π / 2, π⟩ [] 8] := by
  rw [SpatialNode.init, SpatialNode.splitLeaf]
  simp only [List.foldl_nil]
  have e1 : ((π : ℝ) / 2 + -(π / 2)) / 2 = 0 := by ring
  have e2 : ((π : ℝ) + -π) / 2 = 0 := by ring
  simp only [Rectangle.centric_split, List.map_cons, List.map_nil, e1, e2]

/-- The `SpatialTree.search_closest` as seed loop then prune loop. -/
theorem search_tree_eq (b : Rectangle) (cs : List SpatialNode)
    (st : ClosestSearchResult) :
    SpatialNode.search_closest (.tree b cs) st
      = (SpatialNode.seedLoop cs st) >>= fun r1 => SpatialNode.pruneLoop cs r1 := by
  simp only [SpatialNode.search_closest]

/-- Seed loop: skip a leaf child not holding the query point. -/
theorem seedLoop_cons_skip (rct : Rectangle) (pts : List Point) (m : ℕ)
    (rest : List SpatialNode) (q : Point) (cl : Option (Point × ℝ))
    (h : ¬ rct.containsP q) :
    SpatialNode.seedLoop (.leaf rct pts m :: rest) ⟨q, cl⟩
      = SpatialNode.seedLoop rest ⟨q, cl⟩ := by
  simp only [SpatialNode.seedLoop, SpatialNode.bounds]
  rw [if_neg h]

/-- Seed loop: recurse into the first leaf child holding the query point,
then stop (`break`). -/
theorem seedLoop_cons_hit (rct : Rectangle) (pts : List Point) (m : ℕ)
    (rest : List SpatialNode) (q : Point) (cl : Option (Point × ℝ))
    (h : rct.containsP q) :
    SpatialNode.seedLoop (.leaf rct pts m :: rest) ⟨q, cl⟩
      = SpatialNode.search_closest (.leaf rct pts m) ⟨q, cl⟩ := by
  simp only [SpatialNode.seedLoop, SpatialNode.bounds]
  rw [if_pos h]

/-- Prune loop: a leaf child holding the query point is skipped. -/
theorem pruneLoop_cons_contains (rct : Rectangle) (pts : List Point) (m : ℕ)
    (rest : List SpatialNode) (q : Point) (cl : Option (Point × ℝ))
    (h : rct.containsP q) :
    SpatialNode.pruneLoop (.leaf rct pts m :: rest) ⟨q, cl⟩
      = SpatialNode.pruneLoop rest ⟨q, cl⟩ := by
  simp only [SpatialNode.pruneLoop, SpatialNode.bounds]
  rw [if_neg (not_not_intro h)]

/-- Prune loop: stepping over an empty leaf whose longitude span holds the
query longitude leaves the state unchanged whichever way the prune decision
falls (visiting an empty bucket is a no-op). -/
theorem pruneLoop_cons_empty_branch1 (rct : Rectangle) (m : ℕ)
    (rest : List SpatialNode) (q : Point) (c : Point) (d : ℝ)
    (hnc : ¬ rct.containsP q)
    (h1 : rct.left ≤ q.lon ∧ q.lon ≤ rct.right) :
    SpatialNode.pruneLoop (.leaf rct [] m :: rest) ⟨q, some (c, d)⟩
      = SpatialNode.pruneLoop rest ⟨q, some (c, d)⟩ := by
  simp only [SpatialNode.pruneLoop, SpatialNode.bounds]
  rw [if_pos hnc]
  have hint : ClosestSearchResult.intersects ⟨q, some (c, d)⟩ rct = .ok (decide
      (min |q.lat - rct.top| |q.lat - rct.bottom| ≤ d)) := by
    simp only [ClosestSearchResult.intersects]
    rw [if_neg hnc, ClosestSearchResult.min_dist, if_pos h1]
    rfl
  rw [hint]
  simp only [ok_bind]
  cases hdec : decide (min |q.lat - rct.top| |q.lat - rct.bottom| ≤ d)
  · rfl
  · simp only [if_true, SpatialNode.search_closest]
    rfl

/-- Prune loop: a leaf whose minimum latitude gap already exceeds the best
distance is pruned without being scanned. -/
theorem pruneLoop_cons_pruned (rct : Rectangle) (pts : List Point) (m : ℕ)
    (rest : List SpatialNode) (q : Point) (c : Point) (d : ℝ)
    (hnc : ¬ rct.containsP q)
    (h1 : rct.left ≤ q.lon ∧ q.lon ≤ rct.right)
    (hfar : ¬ (min |q.lat - rct.top| |q.lat - rct.bottom| ≤ d)) :
    SpatialNode.pruneLoop (.leaf rct pts m :: rest) ⟨q, some (c, d)⟩
      = SpatialNode.pruneLoop rest ⟨q, some (c, d)⟩ := by
  simp only [SpatialNode.pruneLoop, SpatialNode.bounds]
  rw [if_pos hnc]
  have hint : ClosestSearchResult.intersects ⟨q, some (c, d)⟩ rct = .ok false := by
    have hint0 : ClosestSearchResult.intersects ⟨q, some (c, d)⟩ rct = .ok (decide
        (min |q.lat - rct.top| |q.lat - rct.bottom| ≤ d)) := by
      simp only [ClosestSearchResult.intersects]
      rw [if_neg hnc, ClosestSearchResult.min_dist, if_pos h1]
      rfl
    rw [hint0, decide_eq_false hfar]
  rw [hint]
  rfl

/-- Prune loop: when the query has a best, sits outside the leaf, fails both
longitude-span tests, and lies at latitude exactly `0`, the prune test
divides by `tan(0) = 0` and the whole search dies with `ZeroDivisionError`. -/
theorem pruneLoop_cons_zero_division (rct : Rectangle) (pts : List Point) (m : ℕ)
    (rest : List SpatialNode) (q : Point) (c : Point) (d : ℝ)
    (hnc : ¬ rct.containsP q)
    (h1 : ¬ (rct.left ≤ q.lon ∧ q.lon ≤ rct.right))
    (h2 : ¬ (fmod (rct.left + π) π ≤ fmod (q.lon + π) π ∧
        fmod (q.lon + π) π ≤ fmod (rct.right + π) π))
    (h0 : q.lat = 0) :
    SpatialNode.pruneLoop (.leaf rct pts m :: rest) ⟨q, some (c, d)⟩
      = .error .zeroDivision := by
  simp only [SpatialNode.pruneLoop, SpatialNode.bounds]
  rw [if_pos hnc]
  have hint : ClosestSearchResult.intersects ⟨q, some (c, d)⟩ rct
      = .error .zeroDivision := by
    simp only [ClosestSearchResult.intersects]
    rw [if_neg hnc, ClosestSearchResult.min_dist, if_neg h1, if_neg h2]
    simp only [ClosestSearchResult.intercept_meridian, ClosestSearchResult.lat_at_meridian]
    rw [if_pos h0]
    rfl
  rw [hint]
  rfl

/-- C7 counterexample: the world-spanning index holds a single point
`(0.1, -1)` (radians; not the query), and the query sits at latitude exactly
`0`.  The seed scan sets a best; then the prune test against the sibling
`[-π/2, 0] × [0, π]` reaches the meridian-intercept fallback and divides by
`tan(|0|) = 0`: `search_closest` raises `ZeroDivisionError` instead of
returning a result. -/
theorem search_closest_zero_division_counterexample :
    (SpatialNode.addAll (SpatialNode.init ⟨-(π / 2), -π, π / 2, π⟩ 8)
        [⟨1, 1 / 10, -1⟩]).bind
      (fun t => SpatialNode.search_closest t ⟨⟨0, 0, -1⟩, none⟩)
      = .error .zeroDivision := by
  have hπ := pi_gt_three
  have hA0 : ¬ (Rectangle.mk (-(π / 2)) (-π) 0 0).containsP ⟨1, 1 / 10, -1⟩ := by
    rintro ⟨-, h, -⟩
    exact absurd h (by norm_num)
  have hB0 : ¬ (Rectangle.mk (-(π / 2)) 0 0 π).containsP ⟨1, 1 / 10, -1⟩ := by
    rintro ⟨-, h, -⟩
    exact absurd h (by norm_num)
  have hC0 : (Rectangle.mk 0 (-π) (π / 2) 0).containsP ⟨1, 1 / 10, -1⟩ :=
    ⟨show (0 : ℝ) ≤ 1 / 10 by norm_num, show (1 : ℝ) / 10 < π / 2 by linarith,
     show -π ≤ (-1 : ℝ) by linarith, show (-1 : ℝ) < 0 by norm_num⟩
  have hAq : ¬ (Rectangle.mk (-(π / 2)) (-π) 0 0).containsP ⟨0, 0, -1⟩ := by
    rintro ⟨-, h, -⟩
    exact absurd h (by norm_num)
  have hBq : ¬ (Rectangle.mk (-(π / 2)) 0 0 π).containsP ⟨0, 0, -1⟩ := by
    rintro ⟨-, h, -⟩
    exact absurd h (by norm_num)
  have hCq : (Rectangle.mk 0 (-π) (π / 2) 0).containsP ⟨0, 0, -1⟩ :=
    ⟨le_refl 0, show (0 : ℝ) < π / 2 by linarith,
     show -π ≤ (-1 : ℝ) by linarith, show (-1 : ℝ) < 0 by norm_num⟩
  rw [init_world_eq]
  simp only [SpatialNode.addAll]
  rw [add_third_of_four ⟨-(π / 2), -π, π / 2, π⟩ ⟨-(π / 2), -π, 0, 0⟩
    ⟨-(π / 2), 0, 0, π⟩ ⟨0, -π, π / 2, 0⟩ ⟨0, 0, π / 2, π⟩ [] [] [] [] 8
    ⟨1, 1 / 10, -1⟩ hA0 hB0 hC0 (by norm_num)]
  simp only [ok_bind, ok_bind', List.nil_append]
  rw [search_tree_eq]
  rw [seedLoop_cons_skip _ _ _ _ _ _ hAq, seedLoop_cons_skip _ _ _ _ _ _ hBq,
    seedLoop_cons_hit _ _ _ _ _ _ hCq]
  simp only [SpatialNode.search_closest]
  have hscan : ClosestSearchResult.scanPoints [⟨1, 1 / 10, -1⟩] ⟨⟨0, 0, -1⟩, none⟩
      = ⟨⟨0, 0, -1⟩, some (⟨1, 1 / 10, -1⟩,
          ClosestSearchResult.distance ⟨⟨0, 0, -1⟩, none⟩ ⟨1, 1 / 10, -1⟩)⟩ := by
    simp only [ClosestSearchResult.scanPoints, List.foldl_cons, List.foldl_nil]
    rw [if_neg (show ¬ (⟨1, 1 / 10, -1⟩ : Point)
        = (⟨⟨0, 0, -1⟩, none⟩ : ClosestSearchResult).point by
      intro h
      exact absurd (congrArg Point.tag h) (by norm_num))]
    rfl
  rw [hscan]
  simp only [ok_bind]
  rw [pruneLoop_cons_empty_branch1 _ _ _ _ _ _ hAq
    ⟨show -π ≤ (-1 : ℝ) by linarith, show (-1 : ℝ) ≤ 0 by norm_num⟩]
  have hm2 : fmod (-1 + π) π = -1 + π := by
    have h := fmod_eq (-1 + π) π 0
      (by rw [le_div_iff₀ pi_pos]; push_cast; linarith)
      (by rw [div_lt_iff₀ pi_pos]; push_cast; linarith)
    rw [h]
    push_cast
    ring
  have hm3 : fmod (π + π) π = 0 := by
    have h := fmod_eq (π + π) π 2
      (by rw [le_div_iff₀ pi_pos]; push_cast; linarith)
      (by rw [div_lt_iff₀ pi_pos]; push_cast; linarith)
    rw [h]
    push_cast
    ring
  rw [pruneLoop_cons_zero_division _ _ _ _ _ _ _ hBq
    (by rintro ⟨h, -⟩; exact absurd h (by norm_num))
    (by
      rintro ⟨-, h⟩
      rw [hm2, hm3] at h
      linarith)
    rfl]

/-- The `cos` as a double angle in terms of the half-angle sine. -/
theorem cos_eq_one_sub_two_sin_sq_half (x : ℝ) :
    cos x = 1 - 2 * sin (x / 2) ^ 2 := by
  have h := cos_two_mul (x / 2)
  have hsc := sin_sq_add_cos_sq (x / 2)
  rw [show 2 * (x / 2) = x by ring] at h
  linarith

/-- The stored neighbor at longitude gap `1/10` on the same parallel `1/4` is
strictly closer than a quarter radian. -/
theorem dist_quarter_tenth_lt :
    Point.distance_rad ⟨0, 1 / 4, 0⟩ ⟨1, 1 / 4, 1 / 10⟩ < 1 / 4 := by
  have hπ := pi_gt_three
  have hE1 : cosArg ⟨0, 1 / 4, 0⟩ ⟨1, 1 / 4, 1 / 10⟩
      = sin (1 / 4) * sin (1 / 4) + cos (1 / 4) * cos (1 / 4) * cos (1 / 10) := by
    show sin (1 / 4) * sin (1 / 4)
        + cos (1 / 4) * cos (1 / 4) * cos ((0 : ℝ) - 1 / 10) = _
    rw [show (0 : ℝ) - 1 / 10 = -(1 / 10) by norm_num, cos_neg]
  have key1 : cos (1 / 4) < cosArg ⟨0, 1 / 4, 0⟩ ⟨1, 1 / 4, 1 / 10⟩ := by
    rw [hE1]
    have i4 := cos_eq_one_sub_two_sin_sq_half (1 / 4)
    have i10 := cos_eq_one_sub_two_sin_sq_half (1 / 10)
    rw [show (1 : ℝ) / 4 / 2 = 1 / 8 by norm_num] at i4
    rw [show (1 : ℝ) / 10 / 2 = 1 / 20 by norm_num] at i10
    have hmono : sin (1 / 20) < sin (1 / 8) :=
      Real.strictMonoOn_sin ⟨by linarith, by linarith⟩ ⟨by linarith, by linarith⟩
        (by norm_num)
    have hs20 : 0 < sin (1 / 20) :=
      sin_pos_of_pos_of_lt_pi (by norm_num) (by linarith)
    have hcsq : cos (1 / 4) ^ 2 ≤ 1 := cos_sq_le_one (1 / 4)
    have hpyth := sin_sq_add_cos_sq (1 / 4)
    nlinarith [sq_nonneg (sin (1 / 8) - sin (1 / 20)),
      sq_nonneg (sin (1 / 8) + sin (1 / 20)), sq_nonneg (sin (1 / 20)),
      mul_pos hs20 hs20]
  have hmem := cosArg_mem_Icc ⟨0, 1 / 4, 0⟩ ⟨1, 1 / 4, 1 / 10⟩
  rw [Point.distance_rad]
  have h14 : (1 / 4 : ℝ) ∈ Set.Icc 0 π := ⟨by norm_num, by linarith⟩
  have harc : arccos (cosArg ⟨0, 1 / 4, 0⟩ ⟨1, 1 / 4, 1 / 10⟩) ∈ Set.Icc 0 π :=
    ⟨arccos_nonneg _, arccos_le_pi _⟩
  apply (Real.strictAntiOn_cos.lt_iff_lt h14 harc).mp
  rw [cos_arccos hmem.1 hmem.2]
  exact key1

/-- The stored neighbor at longitude gap `1/1000` is strictly closer than the
one at gap `1/10` (both on the same parallel as the query). -/
theorem dist_thousandth_lt_tenth :
    Point.distance_rad ⟨0, 1 / 4, 0⟩ ⟨2, 1 / 4, -(1 / 1000)⟩
      < Point.distance_rad ⟨0, 1 / 4, 0⟩ ⟨1, 1 / 4, 1 / 10⟩ := by
  have hπ := pi_gt_three
  have hE1 : cosArg ⟨0, 1 / 4, 0⟩ ⟨1, 1 / 4, 1 / 10⟩
      = sin (1 / 4) * sin (1 / 4) + cos (1 / 4) * cos (1 / 4) * cos (1 / 10) := by
    show sin (1 / 4) * sin (1 / 4)
        + cos (1 / 4) * cos (1 / 4) * cos ((0 : ℝ) - 1 / 10) = _
    rw [show (0 : ℝ) - 1 / 10 = -(1 / 10) by norm_num, cos_neg]
  have hE2 : cosArg ⟨0, 1 / 4, 0⟩ ⟨2, 1 / 4, -(1 / 1000)⟩
      = sin (1 / 4) * sin (1 / 4) + cos (1 / 4) * cos (1 / 4) * cos (1 / 1000) := by
    show sin (1 / 4) * sin (1 / 4)
        + cos (1 / 4) * cos (1 / 4) * cos ((0 : ℝ) - -(1 / 1000)) = _
    rw [show (0 : ℝ) - -(1 / 1000) = 1 / 1000 by norm_num]
  have hmem1 := cosArg_mem_Icc ⟨0, 1 / 4, 0⟩ ⟨1, 1 / 4, 1 / 10⟩
  have hmem2 := cosArg_mem_Icc ⟨0, 1 / 4, 0⟩ ⟨2, 1 / 4, -(1 / 1000)⟩
  have hcc : cos (1 / 10) < cos (1 / 1000) :=
    Real.strictAntiOn_cos ⟨by norm_num, by linarith⟩ ⟨by norm_num, by linarith⟩
      (by norm_num)
  have hcpos : 0 < cos (1 / 4) :=
    cos_pos_of_mem_Ioo ⟨by linarith, by linarith⟩
  have hlt : cosArg ⟨0, 1 / 4, 0⟩ ⟨1, 1 / 4, 1 / 10⟩
      < cosArg ⟨0, 1 / 4, 0⟩ ⟨2, 1 / 4, -(1 / 1000)⟩ := by
    rw [hE1, hE2]
    nlinarith [mul_pos hcpos hcpos]
  rw [Point.distance_rad, Point.distance_rad]
  exact (Real.strictAntiOn_arccos.lt_iff_lt ⟨hmem2.1, hmem2.2⟩
    ⟨hmem1.1, hmem1.2⟩).mpr hlt

/-- C1 evidence (code bug): three points strictly inside the world-spanning
index, all on the parallel `lat = 1/4` rad: the query `q` at longitude `0`
(which is a leaf boundary meridian of the root split), `p1` at longitude
`1/10` (same leaf as `q`) and `p2` at longitude `-1/1000` (the adjacent leaf
to the west, angular distance ≈ `0.00097` from `q` — the true nearest).  The
seed scan sets best = `p1` (distance ≈ `0.0969`); then the first prune branch
tests the western leaf with the CLOSED condition `left ≤ lon ≤ right`
(`-π ≤ 0 ≤ 0`), measures only the latitude gap `1/4 > dist(q, p1)` and prunes
the leaf that contains `p2`.  The search answers `p1` although `p2` is
strictly closer — not the exhaustive-scan nearest neighbor. -/
theorem search_closest_wrong_neighbor :
    (SpatialNode.addAll (SpatialNode.init ⟨-(π / 2), -π, π / 2, π⟩ 8)
        [⟨0, 1 / 4, 0⟩, ⟨1, 1 / 4, 1 / 10⟩, ⟨2, 1 / 4, -(1 / 1000)⟩]).bind
      (fun t => SpatialNode.search_closest t ⟨⟨0, 1 / 4, 0⟩, none⟩)
      = .ok ⟨⟨0, 1 / 4, 0⟩, some (⟨1, 1 / 4, 1 / 10⟩,
          Point.distance_rad ⟨0, 1 / 4, 0⟩ ⟨1, 1 / 4, 1 / 10⟩)⟩ ∧
    Point.distance_rad ⟨0, 1 / 4, 0⟩ ⟨2, 1 / 4, -(1 / 1000)⟩
      < Point.distance_rad ⟨0, 1 / 4, 0⟩ ⟨1, 1 / 4, 1 / 10⟩ := by
  have hπ := pi_gt_three
  constructor
  · -- containment decisions for the three inserted points and the query
    have hnAq : ¬ (Rectangle.mk (-(π / 2)) (-π) 0 0).containsP ⟨0, 1 / 4, 0⟩ := by
      rintro ⟨-, h, -⟩
      exact absurd h (by norm_num)
    have hnBq : ¬ (Rectangle.mk (-(π / 2)) 0 0 π).containsP ⟨0, 1 / 4, 0⟩ := by
      rintro ⟨-, h, -⟩
      exact absurd h (by norm_num)
    have hnCq : ¬ (Rectangle.mk 0 (-π) (π / 2) 0).containsP ⟨0, 1 / 4, 0⟩ := by
      rintro ⟨-, -, -, h⟩
      exact absurd h (by norm_num)
    have hDq : (Rectangle.mk 0 0 (π / 2) π).containsP ⟨0, 1 / 4, 0⟩ :=
      ⟨show (0 : ℝ) ≤ 1 / 4 by norm_num, show (1 : ℝ) / 4 < π / 2 by linarith,
       show (0 : ℝ) ≤ 0 by norm_num, show (0 : ℝ) < π by linarith⟩
    have hnAp1 : ¬ (Rectangle.mk (-(π / 2)) (-π) 0 0).containsP ⟨1, 1 / 4, 1 / 10⟩ := by
      rintro ⟨-, h, -⟩
      exact absurd h (by norm_num)
    have hnBp1 : ¬ (Rectangle.mk (-(π / 2)) 0 0 π).containsP ⟨1, 1 / 4, 1 / 10⟩ := by
      rintro ⟨-, h, -⟩
      exact absurd h (by norm_num)
    have hnCp1 : ¬ (Rectangle.mk 0 (-π) (π / 2) 0).containsP ⟨1, 1 / 4, 1 / 10⟩ := by
      rintro ⟨-, -, -, h⟩
      exact absurd h (by norm_num)
    have hDp1 : (Rectangle.mk 0 0 (π / 2) π).containsP ⟨1, 1 / 4, 1 / 10⟩ :=
      ⟨show (0 : ℝ) ≤ 1 / 4 by norm_num, show (1 : ℝ) / 4 < π / 2 by linarith,
       show (0 : ℝ) ≤ 1 / 10 by norm_num, show (1 : ℝ) / 10 < π by linarith⟩
    have hnAp2 : ¬ (Rectangle.mk (-(π / 2)) (-π) 0 0).containsP
        ⟨2, 1 / 4, -(1 / 1000)⟩ := by
      rintro ⟨-, h, -⟩
      exact absurd h (by norm_num)
    have hnBp2 : ¬ (Rectangle.mk (-(π / 2)) 0 0 π).containsP
        ⟨2, 1 / 4, -(1 / 1000)⟩ := by
      rintro ⟨-, h, -⟩
      exact absurd h (by norm_num)
    have hCp2 : (Rectangle.mk 0 (-π) (π / 2) 0).containsP ⟨2, 1 / 4, -(1 / 1000)⟩ :=
      ⟨show (0 : ℝ) ≤ 1 / 4 by norm_num, show (1 : ℝ) / 4 < π / 2 by linarith,
       show -π ≤ (-(1 / 1000) : ℝ) by linarith, show (-(1 / 1000) : ℝ) < 0 by norm_num⟩
    -- build the tree by the three insertions
    rw [init_world_eq]
    simp only [SpatialNode.addAll]
    rw [add_fourth_of_four ⟨-(π / 2), -π, π / 2, π⟩ ⟨-(π / 2), -π, 0, 0⟩
      ⟨-(π / 2), 0, 0, π⟩ ⟨0, -π, π / 2, 0⟩ ⟨0, 0, π / 2, π⟩ [] [] [] [] 8
      ⟨0, 1 / 4, 0⟩ hnAq hnBq hnCq hDq (by norm_num)]
    simp only [ok_bind, List.nil_append]
    rw [add_fourth_of_four ⟨-(π / 2), -π, π / 2, π⟩ ⟨-(π / 2), -π, 0, 0⟩
      ⟨-(π / 2), 0, 0, π⟩ ⟨0, -π, π / 2, 0⟩ ⟨0, 0, π / 2, π⟩ [] [] []
      [⟨0, 1 / 4, 0⟩] 8 ⟨1, 1 / 4, 1 / 10⟩ hnAp1 hnBp1 hnCp1 hDp1 (by norm_num)]
    simp only [ok_bind, List.singleton_append]
    rw [add_third_of_four ⟨-(π / 2), -π, π / 2, π⟩ ⟨-(π / 2), -π, 0, 0⟩
      ⟨-(π / 2), 0, 0, π⟩ ⟨0, -π, π / 2, 0⟩ ⟨0, 0, π / 2, π⟩ [] [] []
      [⟨0, 1 / 4, 0⟩, ⟨1, 1 / 4, 1 / 10⟩] 8 ⟨2, 1 / 4, -(1 / 1000)⟩
      hnAp2 hnBp2 hCp2 (by norm_num)]
    simp only [ok_bind, ok_bind', List.nil_append, List.singleton_append]
    -- run the search
    rw [search_tree_eq]
    rw [seedLoop_cons_skip _ _ _ _ _ _ hnAq, seedLoop_cons_skip _ _ _ _ _ _ hnBq,
      seedLoop_cons_skip _ _ _ _ _ _ hnCq, seedLoop_cons_hit _ _ _ _ _ _ hDq]
    simp only [SpatialNode.search_closest]
    have hscan : ClosestSearchResult.scanPoints [⟨0, 1 / 4, 0⟩, ⟨1, 1 / 4, 1 / 10⟩]
        ⟨⟨0, 1 / 4, 0⟩, none⟩
        = ⟨⟨0, 1 / 4, 0⟩, some (⟨1, 1 / 4, 1 / 10⟩,
            Point.distance_rad ⟨0, 1 / 4, 0⟩ ⟨1, 1 / 4, 1 / 10⟩)⟩ := by
      simp only [ClosestSearchResult.scanPoints, List.foldl_cons, List.foldl_nil,
        if_true]
      rw [if_neg (show ¬ (⟨1, 1 / 4, 1 / 10⟩ : Point)
          = (⟨⟨0, 1 / 4, 0⟩, none⟩ : ClosestSearchResult).point by
        intro h
        exact absurd (congrArg Point.tag h) (by norm_num))]
      rfl
    rw [hscan]
    simp only [ok_bind]
    rw [pruneLoop_cons_empty_branch1 _ _ _ _ _ _ hnAq
      ⟨show -π ≤ (0 : ℝ) by linarith, show (0 : ℝ) ≤ 0 by norm_num⟩]
    rw [pruneLoop_cons_empty_branch1 _ _ _ _ _ _ hnBq
      ⟨show (0 : ℝ) ≤ 0 by norm_num, show (0 : ℝ) ≤ π by linarith⟩]
    have hminC : min |(1 / 4 : ℝ) - π / 2| |(1 / 4 : ℝ) - 0| = 1 / 4 := by
      have e1 : |(1 / 4 : ℝ) - π / 2| = π / 2 - 1 / 4 := by
        rw [abs_of_nonpos (by linarith)]
        ring
      have e2 : |(1 / 4 : ℝ) - 0| = 1 / 4 := by norm_num
      rw [e1, e2, min_eq_right (by linarith)]
    rw [pruneLoop_cons_pruned _ _ _ _ _ _ _ hnCq
      ⟨show -π ≤ (0 : ℝ) by linarith, show (0 : ℝ) ≤ 0 by norm_num⟩
      (show ¬ (min |(1 / 4 : ℝ) - π / 2| |(1 / 4 : ℝ) - 0|
          ≤ Point.distance_rad ⟨0, 1 / 4, 0⟩ ⟨1, 1 / 4, 1 / 10⟩) by
        rw [hminC]
        exact not_le.mpr dist_quarter_tenth_lt)]
    rw [pruneLoop_cons_contains _ _ _ _ _ _ hDq]
    rfl
  · exact dist_thousandth_lt_tenth

/-- With no best yet, the prune test always keeps the region. -/
theorem intersects_of_closest_none (r : ClosestSearchResult) (bounds : Rectangle)
    (h : r.closest = none) : r.intersects bounds = .ok true := by
  simp [ClosestSearchResult.intersects, h]

/-- For queries off the equator the minimum-distance computation never
raises: the only failure point is the division by `tan(|lat|)` in
`lat_at_meridian`, whose Python divisor is `0.0` exactly at latitude `0`. -/
theorem min_dist_isOk (r : ClosestSearchResult) (bounds : Rectangle)
    (h : ¬ (r.point.lat = 0)) : ∃ v, r.min_dist bounds = .ok v := by
  rw [ClosestSearchResult.min_dist]
  by_cases h1 : bounds.left ≤ r.point.lon ∧ r.point.lon ≤ bounds.right
  · rw [if_pos h1]
    exact ⟨_, rfl⟩
  · rw [if_neg h1]
    by_cases h2 : fmod (bounds.left + π) π ≤ fmod (r.point.lon + π) π ∧
        fmod (r.point.lon + π) π ≤ fmod (bounds.right + π) π
    · rw [if_pos h2]
      exact ⟨_, rfl⟩
    · rw [if_neg h2]
      simp only [ClosestSearchResult.intercept_meridian,
        ClosestSearchResult.lat_at_meridian]
      rw [if_neg h, if_neg h]
      exact ⟨_, rfl⟩

/-- For queries off the equator the prune test never raises. -/
theorem intersects_isOk (r : ClosestSearchResult) (bounds : Rectangle)
    (h : ¬ (r.point.lat = 0)) : ∃ bb, r.intersects bounds = .ok bb := by
  match hc : r.closest with
  | none => exact ⟨true, intersects_of_closest_none r bounds hc⟩
  | some (c, bd) =>
      by_cases hin : bounds.containsP r.point
      · refine ⟨true, ?_⟩
        simp only [ClosestSearchResult.intersects, hc]
        rw [if_pos hin]
      · obtain ⟨v, hv⟩ := min_dist_isOk r bounds h
        refine ⟨decide (v ≤ bd), ?_⟩
        simp only [ClosestSearchResult.intersects, hc]
        rw [if_neg hin, hv]
        rfl

/-- Seed loop of the off-equator termination induction. -/
theorem seedLoop_ok (n : ℕ)
    (ih : ∀ t : SpatialNode, sizeOf t ≤ n → ∀ st : ClosestSearchResult,
      ¬ (st.point.lat = 0) → ∃ st', SpatialNode.search_closest t st = .ok st' ∧
        st'.point = st.point) :
    ∀ cs : List SpatialNode, (∀ c ∈ cs, sizeOf c ≤ n) →
    ∀ st : ClosestSearchResult, ¬ (st.point.lat = 0) →
    ∃ st', SpatialNode.seedLoop cs st = .ok st' ∧ st'.point = st.point := by
  intro cs
  induction cs with
  | nil => intro _ st _; exact ⟨st, rfl, rfl⟩
  | cons c rest ihl =>
      intro hsz st hlat
      simp only [SpatialNode.seedLoop]
      by_cases hc : c.bounds.containsP st.point
      · rw [if_pos hc]
        exact ih c (hsz c (List.mem_cons_self _ _)) st hlat
      · rw [if_neg hc]
        exact ihl (fun x hx => hsz x (List.mem_cons_of_mem _ hx)) st hlat

/-- Prune loop of the off-equator termination induction. -/
theorem pruneLoop_ok (n : ℕ)
    (ih : ∀ t : SpatialNode, sizeOf t ≤ n → ∀ st : ClosestSearchResult,
      ¬ (st.point.lat = 0) → ∃ st', SpatialNode.search_closest t st = .ok st' ∧
        st'.point = st.point) :
    ∀ cs : List SpatialNode, (∀ c ∈ cs, sizeOf c ≤ n) →
    ∀ st : ClosestSearchResult, ¬ (st.point.lat = 0) →
    ∃ st', SpatialNode.pruneLoop cs st = .ok st' ∧ st'.point = st.point := by
  intro cs
  induction cs with
  | nil => intro _ st _; exact ⟨st, rfl, rfl⟩
  | cons c rest ihl =>
      intro hsz st hlat
      simp only [SpatialNode.pruneLoop]
      by_cases hc : ¬ c.bounds.containsP st.point
      · rw [if_pos hc]
        obtain ⟨bb, hbb⟩ := intersects_isOk st c.bounds hlat
        rw [hbb]
        simp only [ok_bind]
        cases bb with
        | false =>
            obtain ⟨st', h1, h2⟩ :=
              ihl (fun x hx => hsz x (List.mem_cons_of_mem _ hx)) st hlat
            exact ⟨st', h1, h2⟩
        | true =>
            obtain ⟨st1, hs1, hp1⟩ := ih c (hsz c (List.mem_cons_self _ _)) st hlat
            rw [if_pos rfl, hs1]
            simp only [ok_bind]
            obtain ⟨st', h1, h2⟩ :=
              ihl (fun x hx => hsz x (List.mem_cons_of_mem _ hx)) st1
                (by rw [hp1]; exact hlat)
            exact ⟨st', h1, h2.trans hp1⟩
      · rw [if_neg hc]
        exact ihl (fun x hx => hsz x (List.mem_cons_of_mem _ hx)) st hlat

/-- Off the equator, `search_closest` always terminates with a result (the
query point of the state is preserved throughout). -/
theorem search_closest_ok : ∀ (n : ℕ) (t : SpatialNode), sizeOf t ≤ n →
    ∀ st : ClosestSearchResult, ¬ (st.point.lat = 0) →
    ∃ st', SpatialNode.search_closest t st = .ok st' ∧ st'.point = st.point := by
  intro n
  induction n with
  | zero =>
      intro t ht
      exfalso
      cases t <;> simp at ht
  | succ n ihn =>
      intro t ht st hlat
      cases t with
      | leaf b pts m =>
          exact ⟨ClosestSearchResult.scanPoints pts st,
            by simp only [SpatialNode.search_closest], scanPoints_point pts st⟩
      | tree b cs =>
          have hsz : ∀ c ∈ cs, sizeOf c ≤ n := by
            intro c hcmem
            have h1 := List.sizeOf_lt_of_mem hcmem
            have h2 : sizeOf (SpatialNode.tree b cs) = 1 + sizeOf b + sizeOf cs := by
              simp
            omega
          obtain ⟨st1, h1, hp1⟩ := seedLoop_ok n ihn cs hsz st hlat
          obtain ⟨st', h2, hp2⟩ := pruneLoop_ok n ihn cs hsz st1
            (by rw [hp1]; exact hlat)
          refine ⟨st', ?_, hp2.trans hp1⟩
          rw [search_tree_eq, h1]
          simp only [ok_bind]
          exact h2

/-- A bucket whose every point is the query itself changes nothing. -/
theorem scanPoints_all_self (pts : List Point) : ∀ st : ClosestSearchResult,
    (∀ p ∈ pts, p = st.point) → ClosestSearchResult.scanPoints pts st = st := by
  induction pts with
  | nil => intro st _; rfl
  | cons p ps ih =>
      intro st h
      simp only [ClosestSearchResult.scanPoints, List.foldl_cons]
      rw [if_pos (h p (List.mem_cons_self _ _))]
      exact ih st (fun x hx => h x (List.mem_cons_of_mem _ hx))

/-- Points of a child are points of the node list. -/
theorem mem_toListAux_of_child : ∀ (cs : List SpatialNode) (c : SpatialNode),
    c ∈ cs → ∀ p ∈ c.toList, p ∈ SpatialNode.toListAux cs := by
  intro cs
  induction cs with
  | nil => intro c hc; exact absurd hc (List.not_mem_nil c)
  | cons c0 rest ih =>
      intro c hc p hp
      simp only [SpatialNode.toListAux]
      rcases List.mem_cons.mp hc with rfl | hmem
      · exact List.mem_append.mpr (Or.inl hp)
      · exact List.mem_append.mpr (Or.inr (ih c hmem p hp))

/-- Seed loop of the query-only induction. -/
theorem seedLoop_self (n : ℕ)
    (ih : ∀ t : SpatialNode, sizeOf t ≤ n → ∀ st : ClosestSearchResult,
      (∀ p ∈ t.toList, p = st.point) → st.closest = none →
      SpatialNode.search_closest t st = .ok st) :
    ∀ cs : List SpatialNode, (∀ c ∈ cs, sizeOf c ≤ n) →
    ∀ st : ClosestSearchResult, (∀ c ∈ cs, ∀ p ∈ c.toList, p = st.point) →
    st.closest = none → SpatialNode.seedLoop cs st = .ok st := by
  intro cs
  induction cs with
  | nil => intro _ st _ _; rfl
  | cons c rest ihl =>
      intro hsz st hall hnone
      simp only [SpatialNode.seedLoop]
      by_cases hc : c.bounds.containsP st.point
      · rw [if_pos hc]
        exact ih c (hsz c (List.mem_cons_self _ _)) st
          (hall c (List.mem_cons_self _ _)) hnone
      · rw [if_neg hc]
        exact ihl (fun x hx => hsz x (List.mem_cons_of_mem _ hx)) st
          (fun x hx => hall x (List.mem_cons_of_mem _ hx)) hnone

/-- Prune loop of the query-only induction. -/
theorem pruneLoop_self (n : ℕ)
    (ih : ∀ t : SpatialNode, sizeOf t ≤ n → ∀ st : ClosestSearchResult,
      (∀ p ∈ t.toList, p = st.point) → st.closest = none →
      SpatialNode.search_closest t st = .ok st) :
    ∀ cs : List SpatialNode, (∀ c ∈ cs, sizeOf c ≤ n) →
    ∀ st : ClosestSearchResult, (∀ c ∈ cs, ∀ p ∈ c.toList, p = st.point) →
    st.closest = none → SpatialNode.pruneLoop cs st = .ok st := by
  intro cs
  induction cs with
  | nil => intro _ st _ _; rfl
  | cons c rest ihl =>
      intro hsz st hall hnone
      simp only [SpatialNode.pruneLoop]
      by_cases hc : ¬ c.bounds.containsP st.point
      · rw [if_pos hc, intersects_of_closest_none st c.bounds hnone]
        simp only [ok_bind]
        rw [if_pos trivial, ih c (hsz c (List.mem_cons_self _ _)) st
          (hall c (List.mem_cons_self _ _)) hnone]
        simp only [ok_bind]
        exact ihl (fun x hx => hsz x (List.mem_cons_of_mem _ hx)) st
          (fun x hx => hall x (List.mem_cons_of_mem _ hx)) hnone
      · rw [if_neg hc]
        exact ihl (fun x hx => hsz x (List.mem_cons_of_mem _ hx)) st
          (fun x hx => hall x (List.mem_cons_of_mem _ hx)) hnone

/-- When the index stores nothing besides the query object itself, the search
returns the state unchanged — in particular with `closest = None`. -/
theorem search_closest_self_points : ∀ (n : ℕ) (t : SpatialNode), sizeOf t ≤ n →
    ∀ st : ClosestSearchResult, (∀ p ∈ t.toList, p = st.point) →
    st.closest = none → SpatialNode.search_closest t st = .ok st := by
  intro n
  induction n with
  | zero =>
      intro t ht
      exfalso
      cases t <;> simp at ht
  | succ n ihn =>
      intro t ht st hall hnone
      cases t with
      | leaf b pts m =>
          have h := scanPoints_all_self pts st hall
          simp only [SpatialNode.search_closest, h]
      | tree b cs =>
          have hsz : ∀ c ∈ cs, sizeOf c ≤ n := by
            intro c hcmem
            have h1 := List.sizeOf_lt_of_mem hcmem
            have h2 : sizeOf (SpatialNode.tree b cs) = 1 + sizeOf b + sizeOf cs := by
              simp
            omega
          have hall' : ∀ c ∈ cs, ∀ p ∈ c.toList, p = st.point := by
            intro c hcmem p hp
            exact hall p (mem_toListAux_of_child cs c hcmem p hp)
          rw [search_tree_eq, seedLoop_self n ihn cs hsz st hall' hnone]
          simp only [ok_bind]
          exact pruneLoop_self n ihn cs hsz st hall' hnone

/-- C7 (amended): for every tree and every query with latitude different
from `0`, `search_closest` terminates normally with a result (at latitude
exactly `0` it can raise `ZeroDivisionError`, see the counterexample); and
whenever the tree holds no point other than the query object itself — which
covers every tree with fewer than two points whose sole point is the query —
it returns without raising and with `closest` still the explicit no-result
value `none`, so the query is never its own answer. -/
theorem search_closest_fewer_than_two (t : SpatialNode) (q : Point) :
    (¬ (q.lat = 0) → ∃ st', SpatialNode.search_closest t ⟨q, none⟩ = .ok st' ∧
      st'.point = q) ∧
    ((∀ p ∈ t.toList, p = q) →
      SpatialNode.search_closest t ⟨q, none⟩ = .ok ⟨q, none⟩) := by
  constructor
  · intro hlat
    exact search_closest_ok (sizeOf t) t le_rfl ⟨q, none⟩ hlat
  · intro hall
    exact search_closest_self_points (sizeOf t) t le_rfl ⟨q, none⟩ hall rfl

/-- Witness for C7's amended theorem: the empty world index returns
`closest = None` for an off-equator query without raising. -/
theorem search_closest_fewer_than_two_witness :
    SpatialNode.search_closest (SpatialNode.init ⟨-(π / 2), -π, π / 2, π⟩ 8)
      ⟨⟨9, 1 / 2, 1 / 2⟩, none⟩ = .ok ⟨⟨9, 1 / 2, 1 / 2⟩, none⟩ :=
  (search_closest_fewer_than_two (SpatialNode.init ⟨-(π / 2), -π, π / 2, π⟩ 8)
    ⟨9, 1 / 2, 1 / 2⟩).2 (by
      intro p hp
      rw [show SpatialNode.toList (SpatialNode.init ⟨-(π / 2), -π, π / 2, π⟩ 8)
        = [] from rfl] at hp
      exact absurd hp (List.not_mem_nil p))

/-- Witness for C10: a point exactly on the top-right corner of the unit
square (excluded by the half-open rule) is silently discarded. -/
theorem tree_add_outside_unchanged_witness :
    SpatialNode.add (.tree ⟨0, 0, 1, 1⟩ (SpatialNode.splitLeaf ⟨0, 0, 1, 1⟩ [] 8))
        ⟨0, 1, 1⟩
      = .ok (.tree ⟨0, 0, 1, 1⟩ (SpatialNode.splitLeaf ⟨0, 0, 1, 1⟩ [] 8)) := by
  have hwf : SpatialNode.WF (.tree ⟨0, 0, 1, 1⟩
      (SpatialNode.splitLeaf ⟨0, 0, 1, 1⟩ [] 8)) :=
    SpatialNode.init_WF ⟨0, 0, 1, 1⟩ 8 ⟨by norm_num, by norm_num⟩
  exact (tree_add_outside_unchanged ⟨0, 0, 1, 1⟩ _ hwf ⟨0, 1, 1⟩
    (by rintro ⟨-, h, -⟩; simp only at h; norm_num at h)).1

end
